import Mathlib

/-!
Verification of `sage/geometry/polyhedron/generating_function.py`
(generating function of the integral points of a polyhedron).

The development shallowly embeds the module's data and algorithms:

* coefficient vectors `(c0, c1, …, cd)` of inequalities/equations become
  `List ℤ`, read through `coeff` (absent entries read as `0`, matching the
  fixed common length of the tuples in one system);
* lattice points become functions `ℕ → ℤ` restricted to indices `< d`;
* generating functions are treated through their power-series coefficient
  functions: the coefficient of `y0^(v 0) ⋯ y_{d-1}^(v (d-1))` in the
  generating function of a system is `1` or `0` according to whether `v`
  is a nonnegative integral solution (`gfCoeff`);
* the monomial substitutions (`rules`) together with the monomial `factor`
  of a transform act on coefficient functions by push-forward along the
  induced affine exponent map `φ`; since every `φ` arising here is
  injective, the push-forward is expressed with an explicit one-sided
  inverse `ψ` (`pushF`).

Exact rational arithmetic, matrix rank and matrix inversion are primitive
numeric services for the module (they come from the surrounding computer
algebra system); executable implementations over unnormalised integer
fractions (`Frac`) are provided below so that every definition can be
evaluated on concrete inputs.
-/

namespace GenFn

/-- Entry `j` of a coefficient vector; entries beyond the stored length are
`0`.  Index `0` is the constant term, index `i+1` the coefficient of the
`i`-th coordinate. -/
def coeff (e : List ℤ) (j : ℕ) : ℤ := e.getD j 0

/-- Value of the affine-linear functional `c0 + c1*x0 + … + cd*x_{d-1}`
described by the coefficient vector `e` at the point `v` of a
`d`-dimensional system. -/
def aeval (d : ℕ) (e : List ℤ) (v : ℕ → ℤ) : ℤ :=
  coeff e 0 + ∑ i ∈ Finset.range d, coeff e (i + 1) * v i

/-- The point has nonnegative coordinates (in the ambient dimension `d`);
the module only handles polyhedra inside the nonnegative orthant. -/
def okPoint (d : ℕ) (v : ℕ → ℤ) : Prop := ∀ i ∈ Finset.range d, 0 ≤ v i

instance (d v) : Decidable (okPoint d v) := by
  unfold okPoint; infer_instance

/-- `v` satisfies all inequalities (each `e·(1,v) ≥ 0`). -/
def satIneqs (d : ℕ) (ineqs : List (List ℤ)) (v : ℕ → ℤ) : Prop :=
  ∀ e ∈ ineqs, 0 ≤ aeval d e v

instance (d l v) : Decidable (satIneqs d l v) := by
  unfold satIneqs; infer_instance

/-- `v` satisfies all equations (each `e·(1,v) = 0`). -/
def satEqs (d : ℕ) (eqs : List (List ℤ)) (v : ℕ → ℤ) : Prop :=
  ∀ e ∈ eqs, aeval d e v = 0

instance (d l v) : Decidable (satEqs d l v) := by
  unfold satEqs; infer_instance

/-- Coefficient of the monomial with exponent vector `v` in the generating
function `Σ_{r ∈ P ∩ ℤ^d, r ≥ 0} y^r` of the system `(ineqs, eqs)`:
`1` if `v` is a nonnegative integral solution, else `0`. -/
def gfCoeff (d : ℕ) (ineqs eqs : List (List ℤ)) (v : ℕ → ℤ) : ℤ :=
  if okPoint d v ∧ satIneqs d ineqs v ∧ satEqs d eqs v then 1 else 0

/-- A formal power series in `d` variables, given by its coefficient
function on exponent vectors. -/
abbrev Series : Type := (ℕ → ℤ) → ℤ

/-- Two exponent vectors agree on the coordinates `< d`. -/
def eqOnD (d : ℕ) (u v : ℕ → ℤ) : Prop := ∀ i ∈ Finset.range d, u i = v i

instance (d u v) : Decidable (eqOnD d u v) := by
  unfold eqOnD; infer_instance

/-- Push-forward of a series along an injective monomial map.  If every
generator `y_i` is substituted by a monomial and the result is multiplied
by a monomial factor, the exponent vector `w` of each series term is sent
to `φ w`; the coefficient of `v` in the substituted series is then the
coefficient of `ψ v` in the original, provided `v` lies in the image of
`φ` (`ψ` is a one-sided inverse of `φ`), and `0` otherwise. -/
def pushF (d : ℕ) (φ ψ : (ℕ → ℤ) → (ℕ → ℤ)) (f : Series) : Series :=
  fun v => if eqOnD d (φ (ψ v)) v then f (ψ v) else 0

end GenFn

namespace GenFn

/-!
## `compositions_mod` (Modular Composition Enumerator)

`_compositions_mod_(u, r)` enumerates tuples of residues:
if `u` is empty it yields the empty tuple exactly when the remaining
target `r` is the zero vector; otherwise it iterates a candidate residue
`j` from `0` below the maximum of the additive orders of the first
vector's components and recurses on `r - j*v`.  Residues live in
`Zmod(m)`, embedded here as integers with congruences spelled out
explicitly; the additive order of `a` in `Zmod(m)` is `m / gcd(a, m)`.
-/

/-- Additive order of `a` in `Zmod(m)`: `m / gcd(a, m)`.  (A primitive
numeric service: `vv.order()` in the source.) -/
def ordZ (m : ℕ) (a : ℤ) : ℕ := m / Int.gcd a m

/-- `max(vv.order() for vv in v)` — the bound used by the enumerator for
the first coefficient vector.  (Orders are always `≥ 1` for a positive
modulus, so folding `max` from `1` agrees with Python's `max` on the
nonempty tuples occurring in the source.) -/
def maxOrd (m : ℕ) (v : List ℤ) : ℕ := (v.map (ordZ m)).foldl max 1

/-- `r - j*v` componentwise. -/
def vecSubJ (r : List ℤ) (j : ℕ) (v : List ℤ) : List ℤ :=
  List.zipWith (fun rr vv => rr - (j : ℤ) * vv) r v

/-- The helper `_compositions_mod_(u, r)` over `Zmod(m)`, with residues
represented by natural numbers below their level's modulus. -/
def compsM (m : ℕ) : List (List ℤ) → List ℤ → List (List ℕ)
  | [], r => if r.all (fun rr => rr % (m : ℤ) = 0) then [[]] else []
  | v :: u, r =>
      (List.range (maxOrd m v)).flatMap
        (fun j => (compsM m u (vecSubJ r j v)).map (fun a => j :: a))

/-- `compositions_mod(u, m, r)` in the (default) one-dimensional mode:
each coefficient becomes a one-component vector and the remainder a
one-component target. -/
def compositions_mod (u : List ℤ) (m : ℕ) (r : ℤ) : List (List ℕ) :=
  compsM m (u.map (fun x => [x])) [r]

/-- `compositions_mod(u, m, r, multidimensional=True)`: the coefficients
are vectors and the remainder is a vector. -/
def compositionsModMulti (u : List (List ℤ)) (m : ℕ) (r : List ℤ) :
    List (List ℕ) :=
  compsM m u r

/-!
Spec-side enumeration used to characterise `compositions_mod`:
all tuples whose `i`-th entry ranges over `[0, b i)`, in lexicographic
order, then filtered by the congruence `Σ a_i * u_i ≡ r (mod m)`.
-/

/-- All tuples with entries below the given bounds, first coordinate
outermost, candidates in increasing order at each level. -/
def boxTuples : List ℕ → List (List ℕ)
  | [] => [[]]
  | b :: bs => (List.range b).flatMap
      (fun j => (boxTuples bs).map (fun a => j :: a))

/-- `Σ a_i * u_i ≡ r (mod m)` componentwise, where the sum is over the
positions of the tuple `a` (missing positions contribute nothing). -/
def congSum (m : ℕ) (u : List (List ℤ)) (a : List ℕ) (r : List ℤ) : Prop :=
  ∀ t ∈ Finset.range r.length,
    (r.getD t 0 -
        ∑ i ∈ Finset.range u.length,
          (a.getD i 0 : ℤ) * ((u.getD i []).getD t 0)) % (m : ℤ) = 0

instance (m u a r) : Decidable (congSum m u a r) := by
  unfold congSum; infer_instance

end GenFn

namespace GenFn

lemma filter_flatMap_comm {α β : Type} (l : List α) (g : α → List β)
    (p : β → Bool) :
    (l.flatMap g).filter p = l.flatMap (fun x => (g x).filter p) := by
  induction l with
  | nil => simp
  | cons a l ih => simp [List.flatMap_cons, List.filter_append, ih]

lemma length_vecSubJ (r v : List ℤ) (j : ℕ) (hv : v.length = r.length) :
    (vecSubJ r j v).length = r.length := by
  simp [vecSubJ, hv]

lemma getD_vecSubJ (r v : List ℤ) (j t : ℕ) (hv : v.length = r.length) :
    (vecSubJ r j v).getD t 0 = r.getD t 0 - (j : ℤ) * v.getD t 0 := by
  unfold vecSubJ
  rcases lt_or_le t r.length with h | h
  · rw [List.getD_eq_getElem?_getD, List.getElem?_zipWith]
    rw [List.getElem?_eq_getElem h, List.getElem?_eq_getElem (by omega : t < v.length)]
    simp [List.getD_eq_getElem?_getD, List.getElem?_eq_getElem, h,
      (by omega : t < v.length)]
  · rw [List.getD_eq_getElem?_getD, List.getElem?_eq_none (by simp; omega)]
    rw [List.getD_eq_getElem?_getD, List.getElem?_eq_none (by omega)]
    rw [List.getD_eq_getElem?_getD, List.getElem?_eq_none (by omega)]
    simp

lemma congSum_nil_iff (m : ℕ) (r : List ℤ) :
    congSum m [] [] r ↔ (r.all (fun rr => rr % (m : ℤ) = 0) = true) := by
  unfold congSum
  simp only [List.length_nil, Finset.range_zero, Finset.sum_empty, sub_zero,
    List.all_eq_true, decide_eq_true_eq]
  constructor
  · intro h x hx
    obtain ⟨t, ht, rfl⟩ := List.getElem_of_mem hx
    have := h t (Finset.mem_range.mpr ht)
    rwa [List.getD_eq_getElem?_getD, List.getElem?_eq_getElem ht] at this
  · intro h t ht
    rw [List.getD_eq_getElem?_getD,
      List.getElem?_eq_getElem (Finset.mem_range.mp ht)]
    exact h _ (List.getElem_mem _)

lemma congSum_cons_iff (m : ℕ) (v : List ℤ) (u : List (List ℤ)) (j : ℕ)
    (a : List ℕ) (r : List ℤ) (hv : v.length = r.length) :
    congSum m (v :: u) (j :: a) r ↔ congSum m u a (vecSubJ r j v) := by
  unfold congSum
  rw [length_vecSubJ r v j hv]
  refine forall₂_congr (fun t ht => ?_)
  rw [getD_vecSubJ r v j t hv]
  have hsum : ∑ i ∈ Finset.range (v :: u).length,
      ((j :: a).getD i 0 : ℤ) * (((v :: u).getD i []).getD t 0)
      = (j : ℤ) * v.getD t 0
        + ∑ i ∈ Finset.range u.length,
            (a.getD i 0 : ℤ) * ((u.getD i []).getD t 0) := by
    rw [List.length_cons, Finset.sum_range_succ']
    simp [add_comm]
  rw [hsum, sub_add_eq_sub_sub]

lemma compsM_eq_filter (m : ℕ) :
    ∀ (u : List (List ℤ)) (r : List ℤ), (∀ v ∈ u, v.length = r.length) →
      compsM m u r
        = (boxTuples (u.map (maxOrd m))).filter (fun a => congSum m u a r) := by
  intro u
  induction u with
  | nil =>
      intro r _
      simp only [compsM, boxTuples, List.map_nil]
      by_cases hc : congSum m [] [] r
      · have hB : r.all (fun rr => rr % (m : ℤ) = 0) = true :=
          (congSum_nil_iff m r).mp hc
        simp only [hB]
        simp [List.filter_cons, hc]
      · have hB : r.all (fun rr => rr % (m : ℤ) = 0) = false :=
          Bool.eq_false_iff.mpr (fun h => hc ((congSum_nil_iff m r).mpr h))
        simp only [hB]
        simp [List.filter_cons, hc]
  | cons v u ih =>
      intro r hlen
      have hv : v.length = r.length := hlen v (List.mem_cons_self v u)
      have hrec : ∀ j : ℕ, compsM m u (vecSubJ r j v)
          = (boxTuples (u.map (maxOrd m))).filter
              (fun a => congSum m u a (vecSubJ r j v)) := fun j =>
        ih (vecSubJ r j v) (fun w hw => by
          rw [length_vecSubJ r v j hv]
          exact hlen w (List.mem_cons_of_mem v hw))
      simp only [compsM, boxTuples, List.map_cons]
      rw [filter_flatMap_comm]
      refine List.flatMap_congr (fun j hj => ?_)
      rw [hrec j, List.filter_map]
      congr 1
      refine List.filter_congr (fun a ha => ?_)
      show decide (congSum m u a (vecSubJ r j v))
        = decide (congSum m (v :: u) (j :: a) r)
      exact decide_eq_decide.mpr (congSum_cons_iff m v u j a r hv).symm

end GenFn

namespace GenFn

lemma pairwise_flatMap_of {α β : Type} {R : β → β → Prop} {l : List α}
    {g : α → List β} (hg : ∀ x ∈ l, (g x).Pairwise R)
    (hl : l.Pairwise (fun x y => ∀ a ∈ g x, ∀ b ∈ g y, R a b)) :
    (l.flatMap g).Pairwise R := by
  induction l with
  | nil => simp
  | cons x l ih =>
      rw [List.flatMap_cons, List.pairwise_append]
      refine ⟨hg x (List.mem_cons_self x l),
        ih (fun y hy => hg y (List.mem_cons_of_mem x hy)) hl.tail, ?_⟩
      intro a ha b hb
      obtain ⟨y, hy, hby⟩ := List.mem_flatMap.mp hb
      exact List.rel_of_pairwise_cons hl hy a ha b hby

lemma boxTuples_pairwise (bs : List ℕ) :
    (boxTuples bs).Pairwise (List.Lex (· < ·)) := by
  induction bs with
  | nil => simp [boxTuples]
  | cons b bs ih =>
      refine pairwise_flatMap_of (fun j _ => ?_) ?_
      · rw [List.pairwise_map]
        exact ih.imp (fun h => List.Lex.cons h)
      · have : (List.range b).Pairwise (· < ·) := List.pairwise_lt_range b
        refine this.imp ?_
        intro j k hjk a ha b' hb'
        obtain ⟨a', _, rfl⟩ := List.mem_map.mp ha
        obtain ⟨b'', _, rfl⟩ := List.mem_map.mp hb'
        exact List.Lex.rel hjk

end GenFn

namespace GenFn

/-- Sanity check: the doctest examples of `compositions_mod`. -/
lemma compositions_mod_doctests :
    compositions_mod [1, 1] 2 0 = [[0, 0], [1, 1]]
      ∧ compositions_mod [1, 2, 3] 6 0
          = [[0, 0, 0], [1, 1, 1], [2, 2, 0], [3, 0, 1], [4, 1, 0], [5, 2, 1]]
      ∧ compositions_mod [1, 0] 2 0 = [[0, 0]]
      ∧ compositionsModMulti [[1, 2], [2, 2], [3, 2]] 6 [0, 0]
          = [[0, 0, 0], [1, 1, 1], [2, 2, 2]] := by
  refine ⟨by decide, by decide, by decide, by decide⟩

/-- C5, counterexample.  The tuple `(0, 1)` consists of residues modulo
`m = 2` and satisfies `0*1 + 1*0 ≡ 0 (mod 2)`, yet `compositions_mod`
does not produce it (the `0`-coefficient's additive order is `1`, so at
its level only the residue `0` is enumerated): the claim that every
solution tuple of residues modulo `m` appears is false. -/
theorem compositions_mod_missing_tuple :
    congSum 2 [[1], [0]] [0, 1] [0]
      ∧ [0, 1] ∉ compositions_mod [1, 0] 2 0
      ∧ compositions_mod [1, 0] 2 0 = [[0, 0]] := by
  refine ⟨by decide, by decide, by decide⟩

/-- C5 (amended): `compositions_mod(u, m, r)` yields exactly the tuples
`(a_1, …, a_k)` with `Σ a_i u_i ≡ r (mod m)` in which each `a_i` ranges
below the maximum additive order (in `Zmod(m)`) of the components of
`u_i` — not below `m` itself —, each such tuple exactly once, candidates
in increasing residue order at each level (the output is lexicographically
sorted, hence also duplicate-free). -/
theorem compositions_mod_enumerates_box :
    (∀ (u : List (List ℤ)) (m : ℕ) (r : List ℤ),
        (∀ v ∈ u, v.length = r.length) →
        compositionsModMulti u m r
            = (boxTuples (u.map (maxOrd m))).filter
                (fun a => congSum m u a r)
          ∧ (compositionsModMulti u m r).Pairwise (List.Lex (· < ·)))
    ∧ (∀ (u : List ℤ) (m : ℕ) (r : ℤ),
        compositions_mod u m r
            = (boxTuples (u.map (fun x => maxOrd m [x]))).filter
                (fun a => congSum m (u.map (fun x => [x])) a [r])) := by
  constructor
  · intro u m r hlen
    refine ⟨compsM_eq_filter m u r hlen, ?_⟩
    have h := compsM_eq_filter m u r hlen
    rw [compositionsModMulti, h]
    exact (boxTuples_pairwise _).sublist (List.filter_sublist _)
  · intro u m r
    have hlen : ∀ v ∈ u.map (fun x => [x]), v.length = ([r] : List ℤ).length := by
      intro v hv
      obtain ⟨x, _, rfl⟩ := List.mem_map.mp hv
      rfl
    rw [compositions_mod, compsM_eq_filter m _ [r] hlen, List.map_map]
    rfl

/-- Witness for `compositions_mod_enumerates_box` at a concrete doctest
input. -/
theorem compositions_mod_enumerates_box_witness :
    compositionsModMulti [[1, 2], [2, 2], [3, 2]] 6 [0, 0]
        = (boxTuples ([[1, 2], [2, 2], [3, 2]].map (maxOrd 6))).filter
            (fun a => congSum 6 [[1, 2], [2, 2], [3, 2]] a [0, 0]) :=
  (compositions_mod_enumerates_box.1 [[1, 2], [2, 2], [3, 2]] 6 [0, 0]
    (by decide)).1

end GenFn

namespace GenFn

/-!
## Exact fractions and matrices, `prepare_equations_transformation`

Matrices are lists of rows.  Exact rational arithmetic, matrix rank and
matrix inversion are primitive numeric services of the surrounding
computer algebra system; executable implementations are given here so
that the pipeline can be evaluated on concrete inputs.
-/

/-- Modelled from the spec: exact rational arithmetic is a primitive
numeric service.  Fractions are kept unnormalized (numerator and nonzero
denominator over `ℤ`); every decision taken by the algorithms below reads
only the sign/zeroness of the numerator or the canonical denominator, so
normalization is irrelevant. -/
structure Frac where
  num : ℤ
  den : ℤ
deriving DecidableEq, Repr

namespace Frac

/-- Embed an integer. -/
def ofZ (z : ℤ) : Frac := ⟨z, 1⟩

/-- Zero as a fraction. -/
def zero : Frac := ⟨0, 1⟩

/-- One as a fraction. -/
def one : Frac := ⟨1, 1⟩

/-- Addition of fractions. -/
def add (f g : Frac) : Frac := ⟨f.num * g.den + g.num * f.den, f.den * g.den⟩

/-- Subtraction of fractions. -/
def sub (f g : Frac) : Frac := ⟨f.num * g.den - g.num * f.den, f.den * g.den⟩

/-- Multiplication of fractions. -/
def mul (f g : Frac) : Frac := ⟨f.num * g.num, f.den * g.den⟩

/-- Division of fractions. -/
def div (f g : Frac) : Frac := ⟨f.num * g.den, f.den * g.num⟩

/-- Negation of a fraction. -/
def neg (f : Frac) : Frac := ⟨-f.num, f.den⟩

/-- The fraction represents `0`. -/
def isZero (f : Frac) : Bool := f.num = 0

/-- The canonical (positive, reduced) denominator: `.denominator()` of
the represented rational number. -/
def canden (f : Frac) : ℕ := f.den.natAbs / Nat.gcd f.num.natAbs f.den.natAbs

/-- The represented value as an integer (`ZZ(·)` in the source); exact
whenever the value is integral, which is the only case in which the
source applies it. -/
def toZ (f : Frac) : ℤ := f.num / f.den

/-- The two fractions represent the same rational number. -/
def veq (f g : Frac) : Prop := f.num * g.den = g.num * f.den

instance (f g : Frac) : Decidable (veq f g) := by
  unfold veq; infer_instance

end Frac

/-- Matrices of fractions as lists of rows. -/
abbrev QMat : Type := List (List Frac)

/-- Integer matrix (list of coefficient vectors) as a fraction matrix. -/
def matOfZ (M : List (List ℤ)) : QMat := M.map (fun e => e.map Frac.ofZ)

/-- Number of columns: the longest row length. -/
def ncolsQ (M : QMat) : ℕ := (M.map List.length).foldr max 0

/-- Column `i` of `M`. -/
def colQ (M : QMat) (i : ℕ) : List Frac := M.map (fun row => row.getD i Frac.zero)

/-- `M.matrix_from_columns(idxs)`: keep the columns listed in `idxs`, in
that order. -/
def matFromCols (M : QMat) (idxs : List ℕ) : QMat :=
  M.map (fun row => idxs.map (fun i => row.getD i Frac.zero))

/-- Entry of a row list, defaulting to zero. -/
def ent (row : List Frac) (j : ℕ) : Frac := row.getD j Frac.zero

/-- Matrix product (the row count of `B` bounds the inner sum). -/
def matMulQ (A B : QMat) : QMat :=
  A.map (fun row =>
    (List.range (ncolsQ B)).map (fun j =>
      (List.range B.length).foldl
        (fun acc k => acc.add ((ent row k).mul (ent (B.getD k []) j)))
        Frac.zero))

/-- Subtract the multiple of the pivot row `p` from `r` that clears the
entry of `r` in the pivot column `c`. -/
def elimRow (p : List Frac) (c : ℕ) (r : List Frac) : List Frac :=
  (List.range r.length).map
    (fun j => (ent r j).sub (((ent r c).div (ent p c)).mul (ent p j)))

/-- Fuel-driven Gaussian elimination (the fuel is the row count, so it
never runs out on the initial call). -/
def rankQF : ℕ → QMat → ℕ
  | _, [] => 0
  | 0, _ => 0
  | n + 1, r :: rs =>
      match r.findIdx? (fun x => ¬ x.isZero) with
      | none => rankQF n rs
      | some c => 1 + rankQF n (rs.map (elimRow r c))

/-- Modelled from the spec: matrix rank over an exact field is a primitive
numeric service (`.rank()` in the source); computed here by Gaussian
elimination on the rows. -/
def rankQ (M : QMat) : ℕ := rankQF M.length M

/-- `(-1)^j` as a fraction. -/
def altSign (j : ℕ) : Frac := if j % 2 = 0 then Frac.one else ⟨-1, 1⟩

/-- Fuel-driven Laplace expansion along the first row. -/
def detQF : ℕ → QMat → Frac
  | _, [] => Frac.one
  | 0, _ => Frac.one
  | n + 1, r :: rs =>
      (List.range r.length).foldl
        (fun acc j => acc.add (((altSign j).mul (ent r j)).mul
          (detQF n (rs.map (fun row => row.eraseIdx j)))))
        Frac.zero

/-- Modelled from the spec: the determinant is a primitive numeric
service; computed here by Laplace expansion along the first row. -/
def detQ (M : QMat) : Frac := detQF M.length M

/-- Modelled from the spec: the inverse of a square matrix over `ℚ` is a
primitive numeric service (`.inverse()` in the source); computed here via
the adjugate. -/
def invQ (M : QMat) : QMat :=
  (List.range M.length).map (fun i =>
    (List.range M.length).map (fun j =>
      (((altSign (i + j)).mul
          (detQ ((M.eraseIdx j).map (fun row => row.eraseIdx i)))).div
        (detQ M))))

/-- The pivot-selection loop of `prepare_equations_transformation`:
scan the candidate columns (passed already reversed, i.e. highest index
first), tentatively append each candidate, keep it if the rank of the
selected-column sub-matrix strictly increases, and stop as soon as one
pivot per equation has been found. -/
def pivotLoop (E : QMat) : List ℕ → List ℕ → ℕ → List ℕ
  | [], indices, _ => indices
  | i :: rest, indices, r =>
      let ind' := indices ++ [i]
      let r1 := rankQ (matFromCols E ind')
      if r1 > r then
        (if E.length ≤ ind'.length then ind' else pivotLoop E rest ind' r1)
      else pivotLoop E rest indices r

/-- `EliminateByEquations.prepare_equations_transformation(E)`: returns
`(TE, indices, indicesn)` where `indices` are the pivot columns chosen by
the backward greedy scan, `TE` is `E` left-multiplied by the inverse of
the pivot sub-matrix, and `indicesn` lists `0` and the nonzero non-pivot
columns. -/
def prepare_equations_transformation (E : QMat) :
    QMat × List ℕ × List ℕ :=
  let nonzero := (List.range (ncolsQ E)).filter
    (fun i => 0 < i ∧ (colQ E i).any (fun x => ¬ x.isZero))
  let desc := pivotLoop E nonzero.reverse [] 0
  let indices := desc.reverse
  let TE := matMulQ (invQ (matFromCols E indices)) E
  (TE, indices, 0 :: nonzero.filter (fun i => i ∉ indices))

/-!
## `TransformMod.generate_mods`

A residue-class configuration (`mod` dictionary) is a list of triples
`(i, m, r)`: the `i`-th coordinate must be `≡ r (mod m)`.
-/

/-- One residue-class configuration: coordinate `i` constrained to the
residue `r` modulo `m`. -/
abbrev ModConfig : Type := List (ℕ × ℕ × ℕ)

/-- `TransformMod.generate_mods(equations)`: compute the row-reduced
rational transformation `TE` of the equations; with no equations (or an
integral `TE`, i.e. least common denominator `1`) there is a single empty
configuration; otherwise enumerate, over the least common denominator `m`
of the entries of `TE`, the residue tuples of the non-pivot columns via
`compositions_mod` (multidimensional mode), keeping for each tuple the
entries whose level modulus exceeds `1`. -/
def generate_mods (eqs : List (List ℤ)) : List ModConfig :=
  let P := prepare_equations_transformation (matOfZ eqs)
  let TE := P.1
  let TEin := P.2.2.drop 1
  if eqs.isEmpty then [[]]
  else
    let m : ℕ :=
      TE.foldl (fun acc row => row.foldl (fun a q => Nat.lcm a q.canden) acc) 1
    if m = 1 then [[]]
    else
      let u := TEin.map (fun i =>
        (colQ TE i).map (fun c => (c.mul (Frac.ofZ m)).toZ))
      let r := (colQ TE 0).map (fun c => ((c.mul (Frac.ofZ m)).neg).toZ)
      (compsM m u r).map (fun a =>
        (List.zip TEin (List.zip u a)).filterMap (fun x =>
          if 1 < maxOrd m x.2.1 then some (x.1 - 1, maxOrd m x.2.1, x.2.2)
          else none))

/-- Concrete lattice point from a list of coordinates. -/
def ptOf (l : List ℤ) : ℕ → ℤ := fun i => l.getD i 0

end GenFn

namespace GenFn

/-- Sanity check: the doctest of `generate_mods`, and the pivot selection
of the first `prepare_equations_transformation` doctest. -/
lemma generate_mods_doctests :
    generate_mods [[0, 1, 1, -2]]
        = [[(0, 2, 0), (1, 2, 0)], [(0, 2, 1), (1, 2, 1)]]
      ∧ (prepare_equations_transformation (matOfZ [[0, 1, 0, -2]])).2
        = ([3], [0, 1]) := by
  refine ⟨by decide, by decide⟩

/-- C4, failing input.  For the equation system
`-1 - x0 + 2*x1 = 0`, `-x0 + 3*x2 = 0` the reduced transform has the
single free column `(-1/2, -1/3)` whose scaled entries `(-3, -2)` have
additive orders `2` and `3` modulo `6`; the enumerator only runs the
candidate residues up to the *maximum* order `3` instead of their least
common multiple `6`, so no residue tuple passes and `generate_mods`
returns no configuration at all — yet the (nonnegative) integer point
`(3, 2, 1)` satisfies both equations.  The configurations are therefore
not jointly exhaustive. -/
theorem generate_mods_not_exhaustive :
    generate_mods [[-1, -1, 2, 0], [0, -1, 0, 3]] = []
      ∧ satEqs 3 [[-1, -1, 2, 0], [0, -1, 0, 3]] (ptOf [3, 2, 1])
      ∧ okPoint 3 (ptOf [3, 2, 1]) := by
  refine ⟨by decide, by decide, by decide⟩

end GenFn

namespace GenFn

/-!
## `TransformMod._transform_`

The transformation matrix `T` is the identity except that, for every
entry `i ↦ (m, r)` of the `mod` dictionary, `T[i+1][i+1] = m` and
`T[i+1][0] = r`.  Inequalities and equations are mapped to `e·T`; the
`rules` read off the columns of `T` substitute `y_i ↦ y_i^m`, and the
`factor` is `∏ y_i^r`.
-/

/-- Look up the `(modulus, residue)` entry of coordinate `i` in a `mod`
dictionary. -/
def modLookup (mod : ModConfig) (i : ℕ) : Option (ℕ × ℕ) :=
  (mod.find? (fun x => x.1 = i)).map (fun x => x.2)

/-- Diagonal entry `m` of the transformation for coordinate `i`
(`1` for unconstrained coordinates). -/
def mval (mod : ModConfig) (i : ℕ) : ℤ :=
  match modLookup mod i with
  | some p => (p.1 : ℤ)
  | none => 1

/-- Shift entry `r` of the transformation for coordinate `i`
(`0` for unconstrained coordinates). -/
def rval (mod : ModConfig) (i : ℕ) : ℤ :=
  match modLookup mod i with
  | some p => (p.2 : ℤ)
  | none => 0

/-- `tuple(vector(e) * T)`: the coefficient vector after the modulus
substitution `x_i = m_i*x_i' + r_i`. -/
def tmVec (d : ℕ) (mod : ModConfig) (e : List ℤ) : List ℤ :=
  (List.range (d + 1)).map (fun j =>
    if j = 0 then
      coeff e 0 + ∑ i ∈ Finset.range d, coeff e (i + 1) * rval mod i
    else coeff e j * mval mod (j - 1))

/-- Exponent map of the `rules`/`factor` pair of `TransformMod`:
substituting `y_i ↦ y_i^{m_i}` and multiplying by `∏ y_i^{r_i}` sends the
exponent vector `w` to `i ↦ m_i*w_i + r_i`. -/
def tmPhi (mod : ModConfig) (w : ℕ → ℤ) : ℕ → ℤ :=
  fun i => mval mod i * w i + rval mod i

/-- One-sided inverse of `tmPhi` (exact on its image). -/
def tmPsi (mod : ModConfig) (v : ℕ → ℤ) : ℕ → ℤ :=
  fun i => (v i - rval mod i) / mval mod i

/-- `v` lies in the residue classes prescribed by the `mod` dictionary. -/
def satMods (mod : ModConfig) (v : ℕ → ℤ) : Prop :=
  ∀ x ∈ mod, (v x.1 - (x.2.2 : ℤ)) % (x.2.1 : ℤ) = 0

instance (mod v) : Decidable (satMods mod v) := by
  unfold satMods; infer_instance

/-- Coefficient of `y^v` in the generating function of the system
`(ineqs, eqs)` restricted to the residue classes of `mod` — the
generating function of one `TransformMod` branch. -/
def gfCoeffMod (d : ℕ) (ineqs eqs : List (List ℤ)) (mod : ModConfig)
    (v : ℕ → ℤ) : ℤ :=
  if okPoint d v ∧ satIneqs d ineqs v ∧ satEqs d eqs v ∧ satMods mod v
  then 1 else 0

/-- A well-formed `mod` dictionary (as produced by `generate_mods`):
distinct constrained coordinates, all inside the ambient dimension, with
positive moduli and residues below them. -/
def modOK (d : ℕ) (mod : ModConfig) : Prop :=
  (mod.map (fun x => x.1)).Nodup
    ∧ ∀ x ∈ mod, x.1 < d ∧ 0 < x.2.1 ∧ x.2.2 < x.2.1

instance (d mod) : Decidable (modOK d mod) := by
  unfold modOK; infer_instance

lemma getD_range_map (n : ℕ) (f : ℕ → ℤ) (j : ℕ) :
    ((List.range n).map f).getD j 0 = if j < n then f j else 0 := by
  rw [List.getD_eq_getElem?_getD, List.getElem?_map]
  by_cases h : j < n
  · simp [List.getElem?_range, h]
  · rw [List.getElem?_eq_none (by simpa using Nat.le_of_not_lt h)]
    simp [h]

lemma aeval_eqOnD (d : ℕ) (e : List ℤ) {u v : ℕ → ℤ} (h : eqOnD d u v) :
    aeval d e u = aeval d e v := by
  unfold aeval
  congr 1
  exact Finset.sum_congr rfl (fun i hi => by rw [h i hi])

lemma modLookup_eq_of_mem {mod : ModConfig} {x : ℕ × ℕ × ℕ}
    (hnd : (mod.map (fun x => x.1)).Nodup) (hx : x ∈ mod) :
    modLookup mod x.1 = some x.2 := by
  induction mod with
  | nil => cases hx
  | cons y mod ih =>
      rcases List.mem_cons.mp hx with rfl | hx'
      · simp [modLookup, List.find?]
      · have hy : y.1 ≠ x.1 := by
          intro hcontra
          have : x.1 ∈ mod.map (fun x => x.1) := List.mem_map_of_mem _ hx'
          rw [List.map_cons] at hnd
          exact (List.nodup_cons.mp hnd).1 (hcontra ▸ this)
        have := ih (by rw [List.map_cons] at hnd; exact (List.nodup_cons.mp hnd).2) hx'
        simpa [modLookup, List.find?, hy] using this

lemma mval_of_mem {d} {mod : ModConfig} {x : ℕ × ℕ × ℕ}
    (hok : modOK d mod) (hx : x ∈ mod) : mval mod x.1 = (x.2.1 : ℤ) := by
  unfold mval
  rw [modLookup_eq_of_mem hok.1 hx]

lemma rval_of_mem {d} {mod : ModConfig} {x : ℕ × ℕ × ℕ}
    (hok : modOK d mod) (hx : x ∈ mod) : rval mod x.1 = (x.2.2 : ℤ) := by
  unfold rval
  rw [modLookup_eq_of_mem hok.1 hx]

lemma mval_pos {d} {mod : ModConfig} (hok : modOK d mod) (i : ℕ) :
    0 < mval mod i := by
  unfold mval modLookup
  cases hfind : mod.find? (fun x => x.1 = i) with
  | none => simp
  | some x =>
      have hmem := List.mem_of_find?_eq_some hfind
      have hx := (hok.2 x hmem).2.1
      simp only [Option.map_some']
      exact_mod_cast hx

end GenFn

namespace GenFn

lemma mod_bounds {d} {mod : ModConfig} (hok : modOK d mod) (i : ℕ) :
    0 ≤ rval mod i ∧ rval mod i < mval mod i := by
  unfold mval rval modLookup
  cases hfind : mod.find? (fun x => x.1 = i) with
  | none => simp
  | some x =>
      have hmem := List.mem_of_find?_eq_some hfind
      have hx := (hok.2 x hmem).2.2
      simp only [Option.map_some']
      exact ⟨by positivity, by exact_mod_cast hx⟩

lemma satMods_dvd {d} {mod : ModConfig} {v : ℕ → ℤ} (hok : modOK d mod)
    (h : satMods mod v) (i : ℕ) : mval mod i ∣ (v i - rval mod i) := by
  unfold mval rval modLookup
  cases hfind : mod.find? (fun x => x.1 = i) with
  | none => simp
  | some x =>
      have hmem := List.mem_of_find?_eq_some hfind
      have hkey : x.1 = i := by simpa using List.find?_some hfind
      have := h x hmem
      rw [hkey] at this
      simp only [Option.map_some']
      exact Int.dvd_of_emod_eq_zero this

lemma tmVec_aeval (d : ℕ) (mod : ModConfig) (e : List ℤ) (w : ℕ → ℤ) :
    aeval d (tmVec d mod e) w = aeval d e (tmPhi mod w) := by
  unfold aeval
  have h0 : coeff (tmVec d mod e) 0
      = coeff e 0 + ∑ i ∈ Finset.range d, coeff e (i + 1) * rval mod i := by
    show (tmVec d mod e).getD 0 0 = _
    unfold tmVec
    rw [getD_range_map]
    simp
  have hs : ∀ i ∈ Finset.range d,
      coeff (tmVec d mod e) (i + 1) * w i
        = coeff e (i + 1) * mval mod i * w i := by
    intro i hi
    have hilt : i + 1 < d + 1 := by
      simpa using Finset.mem_range.mp hi
    show (tmVec d mod e).getD (i + 1) 0 * w i = _
    unfold tmVec
    rw [getD_range_map]
    simp [hilt]
  rw [h0, Finset.sum_congr rfl hs]
  unfold tmPhi
  have : ∑ i ∈ Finset.range d, coeff e (i + 1) * (mval mod i * w i + rval mod i)
      = ∑ i ∈ Finset.range d,
          (coeff e (i + 1) * mval mod i * w i + coeff e (i + 1) * rval mod i) :=
    Finset.sum_congr rfl (fun i _ => by ring)
  rw [this, Finset.sum_add_distrib]
  ring

lemma tmPhi_tmPsi_of_satMods {d} {mod : ModConfig} {v : ℕ → ℤ}
    (hok : modOK d mod) (h : satMods mod v) (i : ℕ) :
    tmPhi mod (tmPsi mod v) i = v i := by
  unfold tmPhi tmPsi
  have hdvd := satMods_dvd hok h i
  have hc : mval mod i * ((v i - rval mod i) / mval mod i)
      = v i - rval mod i := Int.mul_ediv_cancel' hdvd
  rw [hc]
  ring

/-- Round-trip of `TransformMod`: substituting its `rules` into the
generating function of the transformed system and multiplying by its
`factor` (the push-forward along `tmPhi`) reproduces the generating
function of the *input* system restricted to the residue classes of the
`mod` dictionary. -/
lemma tm_roundtrip (d : ℕ) (mod : ModConfig) (ineqs eqs : List (List ℤ))
    (hok : modOK d mod) (v : ℕ → ℤ) :
    gfCoeffMod d ineqs eqs mod v
      = pushF d (tmPhi mod) (tmPsi mod)
          (gfCoeff d (ineqs.map (tmVec d mod)) (eqs.map (tmVec d mod))) v := by
  unfold pushF
  by_cases heq : eqOnD d (tmPhi mod (tmPsi mod v)) v
  · rw [if_pos heq]
    unfold gfCoeffMod gfCoeff
    refine if_congr ?_ rfl rfl
    constructor
    · rintro ⟨hokv, hin, heqs, hmods⟩
      refine ⟨?_, ?_, ?_⟩
      · intro i hi
        have hv := heq i hi
        unfold tmPhi at hv
        have hm := mval_pos hok i
        have hb := mod_bounds hok i
        have hvi := hokv i hi
        nlinarith [hv, hm, hb.1, hb.2, hvi]
      · intro e he
        obtain ⟨e0, he0, rfl⟩ := List.mem_map.mp he
        rw [tmVec_aeval, aeval_eqOnD d e0 heq]
        exact hin e0 he0
      · intro e he
        obtain ⟨e0, he0, rfl⟩ := List.mem_map.mp he
        rw [tmVec_aeval, aeval_eqOnD d e0 heq]
        exact heqs e0 he0
    · rintro ⟨hokw, hin, heqs⟩
      have hokv : okPoint d v := by
        intro i hi
        rw [← heq i hi]
        unfold tmPhi
        have hm := mval_pos hok i
        have hb := mod_bounds hok i
        have := hokw i hi
        nlinarith [hm, hb.1, this]
      refine ⟨hokv, ?_, ?_, ?_⟩
      · intro e he
        have := hin (tmVec d mod e) (List.mem_map_of_mem _ he)
        rwa [tmVec_aeval, aeval_eqOnD d e heq] at this
      · intro e he
        have := heqs (tmVec d mod e) (List.mem_map_of_mem _ he)
        rwa [tmVec_aeval, aeval_eqOnD d e heq] at this
      · intro x hx
        have hlt : x.1 < d := (hok.2 x hx).1
        have hv := heq x.1 (Finset.mem_range.mpr hlt)
        unfold tmPhi at hv
        rw [← hv, mval_of_mem hok hx, rval_of_mem hok hx]
        simp [Int.add_mul_emod_self_left, Int.mul_emod_right]
  · rw [if_neg heq]
    have hnot : ¬ (okPoint d v ∧ satIneqs d ineqs v ∧ satEqs d eqs v
        ∧ satMods mod v) := by
      rintro ⟨hokv, hin, heqs, hmods⟩
      exact heq (fun i hi => tmPhi_tmPsi_of_satMods hok hmods i)
    unfold gfCoeffMod
    rw [if_neg hnot]

end GenFn

namespace GenFn

/-!
## `EliminateByEquations._transform_`

The transform receives the system after `TransformMod`; it computes
`(TE, indices, indicesn)` through `prepare_equations_transformation`,
leaves the inequalities untouched, empties the equations, records
`indices` (shifted down by one) as the coordinates to *skip* in the Omega
engine, and emits `rules`/`factor` reading off the columns of `TE`:
the free generator `y_{j-1}` (for a column `j ∈ indicesn, j ≥ 1`) is
substituted by `y_{j-1} * ∏_k z_k^(-TE[k][j])` and the factor is
`∏_k z_k^(-TE[k][0])`, where `z_k` is the generator of the `k`-th pivot
column.  Here the transform is parametrised by an integral `TE` (`TEZ`)
and the pivot column list, exactly the data produced by
`prepare_equations_transformation` in a successful run.
-/

/-- Row `k` of the (integral) reduced equation matrix. -/
def teRow (TEZ : List (List ℤ)) (k : ℕ) : List ℤ := TEZ.getD k []

/-- Sum of a row of `TEZ` against the free (non-pivot) coordinates of a
point. -/
def elimFreeSum (d : ℕ) (TEZ : List (List ℤ)) (pivots : List ℕ) (k : ℕ)
    (w : ℕ → ℤ) : ℤ :=
  ∑ j ∈ (Finset.range d).filter (fun j => (j + 1) ∉ pivots),
    coeff (teRow TEZ k) (j + 1) * w j

/-- Exponent map of the `rules`/`factor` pair of `EliminateByEquations`:
free coordinates are untouched, and each pivot coordinate receives the
affine combination `-TE[k][0] - Σ_{j free} TE[k][j] * w_{j-1}` read off
its row. -/
def elimPhi (d : ℕ) (TEZ : List (List ℤ)) (pivots : List ℕ) (w : ℕ → ℤ) :
    ℕ → ℤ :=
  fun i => w i + ∑ k ∈ Finset.range TEZ.length,
    (if pivots.getD k 0 = i + 1 then
        - coeff (teRow TEZ k) 0 - elimFreeSum d TEZ pivots k w
      else 0)

/-- One-sided inverse of `elimPhi`: zero out the pivot coordinates. -/
def elimPsi (pivots : List ℕ) (v : ℕ → ℤ) : ℕ → ℤ :=
  fun i => if (i + 1) ∈ pivots then 0 else v i

/-- Modelled from the spec: the Omega Reduction Engine
(`_generating_function_via_Omega_` together with `_Omega_` and
`_simplify_` from `sage/rings/polynomial/omega.py`, which is outside the
analysed sources) returns a numerator/denominator pair whose power-series
expansion has coefficient `1` exactly at the nonnegative points
satisfying the given inequalities, with the skipped coordinates (the
pivot coordinates of the Equation Eliminator) contributing exponent `0`
since their geometric-series factors are excluded from the term list. -/
def omegaSeries (d : ℕ) (ineqs : List (List ℤ)) (skip : List ℕ) : Series :=
  fun w =>
    if okPoint d w ∧ satIneqs d ineqs w ∧ (∀ i ∈ skip, w i = 0) then 1 else 0

end GenFn

namespace GenFn

lemma getD_mem_of_lt {l : List ℕ} {k : ℕ} (hk : k < l.length) :
    l.getD k 0 ∈ l := by
  rw [List.getD_eq_getElem?_getD, List.getElem?_eq_getElem hk]
  exact List.getElem_mem hk

lemma getD_indexOf {l : List ℕ} {x : ℕ} (h : x ∈ l) :
    l.getD (l.indexOf x) 0 = x := by
  rw [List.getD_eq_getElem?_getD,
    List.getElem?_eq_getElem (List.indexOf_lt_length.mpr h)]
  simp [List.indexOf_lt_length, h]

lemma indexOf_getD {l : List ℕ} (hN : l.Nodup) {k : ℕ} (hk : k < l.length) :
    l.indexOf (l.getD k 0) = k := by
  rw [List.getD_eq_getElem?_getD, List.getElem?_eq_getElem hk]
  simpa using List.indexOf_getElem hN k hk

/-- Summing a function of the column index over the pivot coordinates
equals summing it over the positions of the pivot list. -/
lemma sum_filter_pivots (d : ℕ) (pivots : List ℕ)
    (hPiv : ∀ p ∈ pivots, 1 ≤ p ∧ p ≤ d) (hN : pivots.Nodup) (g : ℕ → ℤ) :
    ∑ j ∈ (Finset.range d).filter (fun j => (j + 1) ∈ pivots), g (j + 1)
      = ∑ k ∈ Finset.range pivots.length, g (pivots.getD k 0) := by
  induction pivots with
  | nil => simp
  | cons p ps ih =>
      have honep : 1 ≤ p ∧ p ≤ d := hPiv p (List.mem_cons_self p ps)
      have hnotin : p ∉ ps := (List.nodup_cons.mp hN).1
      have hsplit : (Finset.range d).filter (fun j => (j + 1) ∈ p :: ps)
          = ((Finset.range d).filter (fun j => j + 1 = p))
            ∪ ((Finset.range d).filter (fun j => (j + 1) ∈ ps)) := by
        rw [← Finset.filter_or]
        exact Finset.filter_congr (fun j _ => by simp [List.mem_cons])
      have hdisj : Disjoint ((Finset.range d).filter (fun j => j + 1 = p))
          ((Finset.range d).filter (fun j => (j + 1) ∈ ps)) := by
        rw [Finset.disjoint_filter]
        intro j _ hjp hjps
        exact hnotin (hjp ▸ hjps)
      have hsingle : (Finset.range d).filter (fun j => j + 1 = p) = {p - 1} := by
        ext j
        simp only [Finset.mem_filter, Finset.mem_range, Finset.mem_singleton]
        omega
      rw [hsplit, Finset.sum_union hdisj, hsingle, Finset.sum_singleton,
        ih (fun q hq => hPiv q (List.mem_cons_of_mem p hq))
          (List.nodup_cons.mp hN).2]
      have hp1 : p - 1 + 1 = p := by omega
      rw [hp1, List.length_cons, Finset.sum_range_succ']
      simp only [List.getD_cons_succ, List.getD_cons_zero]
      ring

end GenFn

namespace GenFn

lemma getD_mem {α : Type} {l : List α} {dflt : α} {k : ℕ}
    (hk : k < l.length) : l.getD k dflt ∈ l := by
  rw [List.getD_eq_getElem?_getD, List.getElem?_eq_getElem hk]
  exact List.getElem_mem hk

lemma satEqs_rows_iff (d : ℕ) (TEZ : List (List ℤ)) (v : ℕ → ℤ) :
    satEqs d TEZ v ↔ ∀ k, k < TEZ.length → aeval d (teRow TEZ k) v = 0 := by
  unfold satEqs teRow
  constructor
  · intro h k hk
    exact h _ (getD_mem hk)
  · intro h e he
    obtain ⟨k, hk, rfl⟩ := List.mem_iff_getElem.mp he
    have := h k hk
    rwa [List.getD_eq_getElem?_getD, List.getElem?_eq_getElem hk] at this

/-- Decomposition of a reduced equation row at a point: constant term,
free part, and the pivot coordinate itself (by the identity sub-matrix
property). -/
lemma elim_aeval_decomp (d : ℕ) (TEZ : List (List ℤ)) (pivots : List ℕ)
    (hLen : TEZ.length = pivots.length)
    (hPiv : ∀ p ∈ pivots, 1 ≤ p ∧ p ≤ d) (hN : pivots.Nodup)
    (hId : ∀ k k', k < TEZ.length → k' < pivots.length →
      coeff (teRow TEZ k) (pivots.getD k' 0) = if k = k' then 1 else 0)
    (k : ℕ) (hk : k < TEZ.length) (v : ℕ → ℤ) :
    aeval d (teRow TEZ k) v
      = coeff (teRow TEZ k) 0 + elimFreeSum d TEZ pivots k v
        + v (pivots.getD k 0 - 1) := by
  unfold aeval
  rw [← Finset.sum_filter_add_sum_filter_not (Finset.range d)
    (fun j => (j + 1) ∈ pivots)]
  have hpivpart : ∑ j ∈ (Finset.range d).filter (fun j => (j + 1) ∈ pivots),
      coeff (teRow TEZ k) (j + 1) * v j
      = v (pivots.getD k 0 - 1) := by
    have hgen := sum_filter_pivots d pivots hPiv hN
      (fun c => coeff (teRow TEZ k) c * v (c - 1))
    have hstep : ∑ j ∈ (Finset.range d).filter (fun j => (j + 1) ∈ pivots),
        coeff (teRow TEZ k) (j + 1) * v j
        = ∑ j ∈ (Finset.range d).filter (fun j => (j + 1) ∈ pivots),
            coeff (teRow TEZ k) (j + 1) * v (j + 1 - 1) := by
      refine Finset.sum_congr rfl (fun j _ => ?_)
      norm_num
    rw [hstep, hgen]
    rw [Finset.sum_eq_single k]
    · rw [hId k k hk (hLen ▸ hk), if_pos rfl, one_mul]
    · intro k' hk' hne
      rw [hId k k' hk (Finset.mem_range.mp hk'), if_neg (Ne.symm hne), zero_mul]
    · intro hcontra
      exact absurd (Finset.mem_range.mpr (hLen ▸ hk)) hcontra
  rw [hpivpart]
  unfold elimFreeSum
  have : ∀ j, ((j + 1) ∉ pivots) = ¬ ((j + 1) ∈ pivots) := fun j => rfl
  ring

lemma elimPhi_free (d : ℕ) (TEZ : List (List ℤ)) (pivots : List ℕ)
    (hLen : TEZ.length = pivots.length) {i : ℕ} (hi : (i + 1) ∉ pivots)
    (w : ℕ → ℤ) : elimPhi d TEZ pivots w i = w i := by
  unfold elimPhi
  rw [Finset.sum_eq_zero, add_zero]
  intro k hk
  rw [if_neg]
  intro hcontra
  exact hi (hcontra ▸ getD_mem_of_lt (hLen ▸ Finset.mem_range.mp hk))

lemma elimPhi_pivot (d : ℕ) (TEZ : List (List ℤ)) (pivots : List ℕ)
    (hLen : TEZ.length = pivots.length) (hN : pivots.Nodup)
    {i k : ℕ} (hk : k < TEZ.length) (hgetd : pivots.getD k 0 = i + 1)
    (w : ℕ → ℤ) :
    elimPhi d TEZ pivots w i
      = w i + (- coeff (teRow TEZ k) 0 - elimFreeSum d TEZ pivots k w) := by
  unfold elimPhi
  congr 1
  rw [Finset.sum_eq_single k]
  · rw [if_pos hgetd]
  · intro k' hk' hne
    rw [if_neg]
    intro hcontra
    have h1 : pivots.indexOf (pivots.getD k' 0) = k' :=
      indexOf_getD hN (hLen ▸ Finset.mem_range.mp hk')
    have h2 : pivots.indexOf (pivots.getD k 0) = k :=
      indexOf_getD hN (hLen ▸ hk)
    rw [hcontra, ← hgetd] at h1
    exact hne (h1.symm.trans h2 ▸ rfl)
  · intro hcontra
    exact absurd (Finset.mem_range.mpr hk) hcontra

end GenFn

namespace GenFn

/-- An inequality vanishing on all pivot columns takes the same value at
two points agreeing on the free coordinates. -/
lemma aeval_eq_on_free (d : ℕ) (pivots : List ℕ) (e : List ℤ)
    (hz : ∀ p ∈ pivots, coeff e p = 0) {u u' : ℕ → ℤ}
    (ha : ∀ i ∈ Finset.range d, (i + 1) ∉ pivots → u i = u' i) :
    aeval d e u = aeval d e u' := by
  unfold aeval
  congr 1
  refine Finset.sum_congr rfl (fun j hj => ?_)
  by_cases hp : (j + 1) ∈ pivots
  · rw [hz _ hp, zero_mul, zero_mul]
  · rw [ha j hj hp]

/-- Round-trip of `EliminateByEquations`: substituting its `rules` into
the generating function computed for the equation-free system (with the
pivot coordinates skipped) and multiplying by its `factor` — the
push-forward along `elimPhi` — reproduces the generating function of the
input system `(ineqs, eqs)`.  The hypotheses are the documented
invariants of `prepare_equations_transformation` (`TE` row-equivalent to
the equations with identity pivot sub-matrix), the Omega-stage assertion
that the inequalities vanish on the pivot columns, and the
nonnegative-orthant validity of the system. -/
lemma elim_roundtrip (d : ℕ) (TEZ : List (List ℤ)) (pivots : List ℕ)
    (ineqs eqs : List (List ℤ))
    (hLen : TEZ.length = pivots.length)
    (hPiv : ∀ p ∈ pivots, 1 ≤ p ∧ p ≤ d)
    (hN : pivots.Nodup)
    (hId : ∀ k k', k < TEZ.length → k' < pivots.length →
      coeff (teRow TEZ k) (pivots.getD k' 0) = if k = k' then 1 else 0)
    (hSol : ∀ v : ℕ → ℤ, satEqs d eqs v ↔ satEqs d TEZ v)
    (hZeroI : ∀ e ∈ ineqs, ∀ p ∈ pivots, coeff e p = 0)
    (hOrth : ∀ v : ℕ → ℤ,
      (∀ i ∈ Finset.range d, (i + 1) ∉ pivots → 0 ≤ v i) →
      satIneqs d ineqs v → satEqs d eqs v → okPoint d v)
    (v : ℕ → ℤ) :
    gfCoeff d ineqs eqs v
      = pushF d (elimPhi d TEZ pivots) (elimPsi pivots)
          (omegaSeries d ineqs (pivots.map (fun p => p - 1))) v := by
  have hfreeagree : ∀ u : ℕ → ℤ, ∀ i ∈ Finset.range d, (i + 1) ∉ pivots →
      elimPsi pivots u i = u i := by
    intro u i _ hp
    unfold elimPsi
    rw [if_neg hp]
  have hpsiPiv : ∀ u : ℕ → ℤ, ∀ p ∈ pivots, elimPsi pivots u (p - 1) = 0 := by
    intro u p hp
    unfold elimPsi
    have h1 := (hPiv p hp).1
    rw [if_pos (by rwa [Nat.sub_add_cancel h1])]
  have hfreeSum_agree : ∀ (k : ℕ) (u u' : ℕ → ℤ),
      (∀ i ∈ Finset.range d, (i + 1) ∉ pivots → u i = u' i) →
      elimFreeSum d TEZ pivots k u = elimFreeSum d TEZ pivots k u' := by
    intro k u u' ha
    unfold elimFreeSum
    refine Finset.sum_congr rfl (fun j hj => ?_)
    obtain ⟨hjr, hjp⟩ := Finset.mem_filter.mp hj
    rw [ha j hjr hjp]
  unfold pushF
  by_cases heq : eqOnD d (elimPhi d TEZ pivots (elimPsi pivots v)) v
  · rw [if_pos heq]
    unfold gfCoeff omegaSeries
    refine if_congr ?_ rfl rfl
    constructor
    · rintro ⟨hokv, hin, heqs⟩
      refine ⟨?_, ?_, ?_⟩
      · intro i hi
        unfold elimPsi
        by_cases hp : (i + 1) ∈ pivots
        · rw [if_pos hp]
        · rw [if_neg hp]
          exact hokv i hi
      · intro e he
        rw [aeval_eq_on_free d pivots e (hZeroI e he) (hfreeagree v)]
        exact hin e he
      · intro i hi
        obtain ⟨p, hp, rfl⟩ := List.mem_map.mp hi
        exact hpsiPiv v p hp
    · rintro ⟨hokw, hinw, hskip⟩
      have hvfree : ∀ i ∈ Finset.range d, (i + 1) ∉ pivots →
          v i = elimPsi pivots v i := by
        intro i hi hp
        rw [← heq i hi, elimPhi_free d TEZ pivots hLen hp]
      have hsatEqsv : satEqs d eqs v := by
        rw [hSol, satEqs_rows_iff]
        intro k hk
        rw [elim_aeval_decomp d TEZ pivots hLen hPiv hN hId k hk v]
        have hpmem : pivots.getD k 0 ∈ pivots := getD_mem_of_lt (hLen ▸ hk)
        have hp1 := (hPiv _ hpmem).1
        have hplt : pivots.getD k 0 - 1 < d := by
          have := (hPiv _ hpmem).2
          omega
        have hgetd : pivots.getD k 0 = (pivots.getD k 0 - 1) + 1 := by omega
        have hv := heq (pivots.getD k 0 - 1) (Finset.mem_range.mpr hplt)
        rw [elimPhi_pivot d TEZ pivots hLen hN hk hgetd] at hv
        rw [hpsiPiv v _ hpmem, zero_add] at hv
        rw [← hv]
        have hfs := hfreeSum_agree k (elimPsi pivots v) v
          (fun i hi hp => (hvfree i hi hp).symm)
        rw [hfs]
        ring
      have hsatIneqsv : satIneqs d ineqs v := by
        intro e he
        rw [← aeval_eq_on_free d pivots e (hZeroI e he) (hfreeagree v)]
        exact hinw e he
      refine ⟨?_, hsatIneqsv, hsatEqsv⟩
      refine hOrth v ?_ hsatIneqsv hsatEqsv
      intro i hi hp
      rw [hvfree i hi hp]
      exact hokw i hi
  · rw [if_neg heq]
    unfold gfCoeff
    rw [if_neg]
    rintro ⟨hokv, hin, heqs⟩
    refine heq (fun i hi => ?_)
    by_cases hp : (i + 1) ∈ pivots
    · have hk : pivots.indexOf (i + 1) < pivots.length :=
        List.indexOf_lt_length.mpr hp
      have hgetd : pivots.getD (pivots.indexOf (i + 1)) 0 = i + 1 :=
        getD_indexOf hp
      rw [elimPhi_pivot d TEZ pivots hLen hN (hLen ▸ hk) hgetd]
      have hw0 : elimPsi pivots v i = 0 := by
        unfold elimPsi
        rw [if_pos hp]
      rw [hw0, zero_add]
      have hdecomp := elim_aeval_decomp d TEZ pivots hLen hPiv hN hId
        (pivots.indexOf (i + 1)) (hLen ▸ hk) v
      have hzero : aeval d (teRow TEZ (pivots.indexOf (i + 1))) v = 0 := by
        have := (hSol v).mp heqs
        exact (satEqs_rows_iff d TEZ v).mp this _ (hLen ▸ hk)
      rw [hzero] at hdecomp
      have hfs := hfreeSum_agree (pivots.indexOf (i + 1)) (elimPsi pivots v) v
        (fun j hj hp' => hfreeagree v j hj hp')
      rw [hfs]
      rw [hgetd] at hdecomp
      simp only [Nat.add_sub_cancel] at hdecomp
      linarith
    · rw [elimPhi_free d TEZ pivots hLen hp, hfreeagree v i hi hp]

end GenFn

namespace GenFn

/-!
## `SplitOffSimpleInequalities._transform_`

The inequalities are scanned once: an inequality with all coefficients
nonnegative is dropped; a "lower bound" (a single `+1` coefficient, no
other nonzero ones, negative constant) is kept for the general algorithm;
a "chain" inequality (one `+1` at vertex `i`, one `-1` at vertex `j`,
nothing else, constant `≤ 0`) is recorded as the edge `j → i` of the
chain graph (a Python dict, so a later duplicate key overwrites the
stored constant); everything else is kept.  Then, along a topological
order of the chain graph, a per-vertex potential (the minimum over the
in-neighbours `n` of `potential n + weight`) and a path (the chain of
chosen predecessors) are computed; the non-chosen in-edges contribute
extra inequalities.  The resulting matrix `T` transforms the kept
inequalities and provides `rules`/`factor` through its rows.

The topological order (`order`) and the chosen predecessor (`pick`,
`None` for a source vertex) are parameters of the embedding: the source
obtains them from the graph library's `topological_sort` and from the
first element of the value-sorted in-neighbour list, both of which are
determined only up to ties; the round-trip theorem holds for every
admissible choice.  Vertices are the source's `1`-based column indices.
-/

/-- Coordinates (0-based) whose coefficient is `+1`. -/
def onesSet (d : ℕ) (e : List ℤ) : Finset ℕ :=
  (Finset.range d).filter (fun i => coeff e (i + 1) = 1)

/-- Coordinates (0-based) whose coefficient is `-1`. -/
def monesSet (d : ℕ) (e : List ℤ) : Finset ℕ :=
  (Finset.range d).filter (fun i => coeff e (i + 1) = -1)

/-- Coordinates (0-based) whose coefficient has absolute value `≥ 2`. -/
def bigSet (d : ℕ) (e : List ℤ) : Finset ℕ :=
  (Finset.range d).filter (fun i => 2 ≤ (coeff e (i + 1)).natAbs)

/-- All entries (constant included) nonnegative: the inequality is
implied by the nonnegative orthant and dropped. -/
def allNonnegV (d : ℕ) (e : List ℤ) : Prop :=
  ∀ j ∈ Finset.range (d + 1), 0 ≤ coeff e j

instance (d e) : Decidable (allNonnegV d e) := by
  unfold allNonnegV; infer_instance

/-- Shape of the first `elif`: a single `+1`, no `-1`, nothing big. -/
def isLowerShape (d : ℕ) (e : List ℤ) : Prop :=
  (onesSet d e).card = 1 ∧ monesSet d e = ∅ ∧ bigSet d e = ∅

instance (d e) : Decidable (isLowerShape d e) := by
  unfold isLowerShape; infer_instance

/-- Shape of the chain `elif`: a single `+1`, a single `-1`, nothing
big, constant `≤ 0`. -/
def isChainShape (d : ℕ) (e : List ℤ) : Prop :=
  (onesSet d e).card = 1 ∧ (monesSet d e).card = 1 ∧ bigSet d e = ∅
    ∧ coeff e 0 ≤ 0

instance (d e) : Decidable (isChainShape d e) := by
  unfold isChainShape; infer_instance

/-- Smallest element of a finite set of naturals (`0` on the empty set);
used to extract the unique element of the singleton `ones`/`mones`
sets. -/
def fmin (s : Finset ℕ) : ℕ := s.min.untop' 0

/-- `ones[0]` as a 1-based vertex. -/
def theOne (d : ℕ) (e : List ℤ) : ℕ := fmin (onesSet d e) + 1

/-- `mones[0]` as a 1-based vertex. -/
def theMone (d : ℕ) (e : List ℤ) : ℕ := fmin (monesSet d e) + 1

/-- One step of the classification scan. -/
def classifyAux (d : ℕ) (acc : List (List ℤ) × List ((ℕ × ℕ) × ℤ))
    (e : List ℤ) : List (List ℤ) × List ((ℕ × ℕ) × ℤ) :=
  if allNonnegV d e then acc
  else if isLowerShape d e then
    (if coeff e 0 < 0 then (acc.1 ++ [e], acc.2) else acc)
  else if isChainShape d e then
    (acc.1, acc.2 ++ [((theMone d e, theOne d e), coeff e 0)])
  else (acc.1 ++ [e], acc.2)

/-- The classification scan: returns `(inequalities_filtered, chain
link insertions in order)`. -/
def classify (d : ℕ) (ineqs : List (List ℤ)) :
    List (List ℤ) × List ((ℕ × ℕ) × ℤ) :=
  ineqs.foldl (classifyAux d) ([], [])

/-- Value of the chain-links dictionary at a key: the *last* insertion
wins, as for a Python dict. -/
def linkVal (links : List ((ℕ × ℕ) × ℤ)) (n v : ℕ) : Option ℤ :=
  ((links.reverse).find? (fun x => x.1 = (n, v))).map (fun x => x.2)

/-- The weight `chain_links[(n, v)]` of an edge. -/
def cval (links : List ((ℕ × ℕ) × ℤ)) (n v : ℕ) : ℤ :=
  (linkVal links n v).getD 0

/-- The distinct keys of the chain-links dictionary (the edges). -/
def linkKeys (links : List ((ℕ × ℕ) × ℤ)) : List (ℕ × ℕ) :=
  (links.map (fun x => x.1)).dedup

/-- The vertices of the chain graph. -/
def vertsOf (links : List ((ℕ × ℕ) × ℤ)) : List ℕ :=
  ((linkKeys links).flatMap (fun k => [k.1, k.2])).dedup

/-- The in-neighbours of a vertex. -/
def inNbrs (links : List ((ℕ × ℕ) × ℤ)) (v : ℕ) : List ℕ :=
  (((linkKeys links).filter (fun k => k.2 = v)).map (fun k => k.1))

/-- The potential/path computation along the topological order.  The
potential of a vertex is the minimum of `potential n + weight(n, v)`
over its in-neighbours (`0` for a source); its path extends the chosen
predecessor's path. -/
def soFold (links : List ((ℕ × ℕ) × ℤ)) (pick : ℕ → Option ℕ) :
    List ℕ → (ℕ → ℤ) × (ℕ → List ℕ) → (ℕ → ℤ) × (ℕ → List ℕ)
  | [], st => st
  | v :: rest, st =>
      let p := (((inNbrs links v).map
        (fun n => st.1 n + cval links n v)).min?).getD 0
      let newpath := (match pick v with
        | some n => st.2 n
        | none => []) ++ [v]
      soFold links pick rest
        (Function.update st.1 v p, Function.update st.2 v newpath)

/-- Final potential and path tables. -/
def soState (links : List ((ℕ × ℕ) × ℤ)) (pick : ℕ → Option ℕ)
    (order : List ℕ) : (ℕ → ℤ) × (ℕ → List ℕ) :=
  soFold links pick order (fun _ => 0, fun _ => [])

/-- The transformation matrix `T` (dimension `(d+1) × (d+1)`):
identity, with `T[0][v] = -potential v` and `T[u][v] = 1` for `u` on the
path of a vertex `v`. -/
def soT (links : List ((ℕ × ℕ) × ℤ)) (pick : ℕ → Option ℕ)
    (order : List ℕ) (i j : ℕ) : ℤ :=
  if i = j then 1
  else if i = 0 ∧ j ∈ vertsOf links then - (soState links pick order).1 j
  else if j ∈ vertsOf links ∧ i ∈ (soState links pick order).2 j then 1
  else 0

/-- `tuple(T * vector(ieq))`. -/
def soVec (d : ℕ) (links : List ((ℕ × ℕ) × ℤ)) (pick : ℕ → Option ℕ)
    (order : List ℕ) (e : List ℤ) : List ℤ :=
  (List.range (d + 1)).map (fun i =>
    ∑ j ∈ Finset.range (d + 1), soT links pick order i j * coeff e j)

/-- Length of the common prefix of two lists (the `takewhile` over the
zipped paths). -/
def commonPrefLen : List ℕ → List ℕ → ℕ
  | a :: as, b :: bs => if a = b then 1 + commonPrefLen as bs else 0
  | _, _ => 0

/-- The extra inequality emitted for a non-chosen in-edge `(n, v)`:
`+1` on the path suffix of `v`, `-1` on the path suffix of `n` (set
second, hence winning on overlap, as in the source), and constant
`potential n + weight - potential v`. -/
def extraVec (d : ℕ) (pot : ℕ → ℤ) (path : ℕ → List ℕ)
    (links : List ((ℕ × ℕ) × ℤ)) (n v : ℕ) : List ℤ :=
  let ell := commonPrefLen (path n) (path v)
  let suffV := (path v).drop ell
  let suffN := (path n).drop ell
  (List.range (d + 1)).map (fun j =>
    if j = 0 then pot n + cval links n v - pot v
    else if j ∈ suffN then -1
    else if j ∈ suffV then 1 else 0)

/-- All extra inequalities. -/
def extrasList (d : ℕ) (links : List ((ℕ × ℕ) × ℤ))
    (pick : ℕ → Option ℕ) (order : List ℕ) : List (List ℤ) :=
  order.flatMap (fun v =>
    ((inNbrs links v).filter (fun n => ¬ pick v = some n)).map
      (fun n => extraVec d (soState links pick order).1
        (soState links pick order).2 links n v))

/-- The inequality list passed on to the Omega engine: the transformed
kept inequalities followed by the extra inequalities. -/
def soIneqs (d : ℕ) (ineqs : List (List ℤ)) (pick : ℕ → Option ℕ)
    (order : List ℕ) : List (List ℤ) :=
  ((classify d ineqs).1).map (soVec d (classify d ineqs).2 pick order)
    ++ extrasList d (classify d ineqs).2 pick order

/-- Exponent map of the `rules`/`factor` pair of
`SplitOffSimpleInequalities` (read off the rows of `T`): coordinate
`i` of the image is the column `i+1` of `T` applied to `(1, w)`. -/
def soPhi (d : ℕ) (links : List ((ℕ × ℕ) × ℤ)) (pick : ℕ → Option ℕ)
    (order : List ℕ) (w : ℕ → ℤ) : ℕ → ℤ :=
  fun i => soT links pick order 0 (i + 1)
    + ∑ u ∈ Finset.range d, soT links pick order (u + 1) (i + 1) * w u

/-- One-sided inverse of `soPhi`: the increment of a vertex coordinate
along its chosen-predecessor chain. -/
def soPsi (d : ℕ) (links : List ((ℕ × ℕ) × ℤ)) (pick : ℕ → Option ℕ)
    (order : List ℕ) (v : ℕ → ℤ) : ℕ → ℤ :=
  fun i =>
    if (i + 1) ∈ vertsOf links then
      (v i + (soState links pick order).1 (i + 1))
        - (match pick (i + 1) with
          | some n => v (n - 1) + (soState links pick order).1 n
          | none => 0)
    else v i

end GenFn

namespace GenFn

lemma soFold_unchanged (links : List ((ℕ × ℕ) × ℤ)) (pick : ℕ → Option ℕ) :
    ∀ (L : List ℕ) (st : (ℕ → ℤ) × (ℕ → List ℕ)) (x : ℕ), x ∉ L →
      (soFold links pick L st).1 x = st.1 x
        ∧ (soFold links pick L st).2 x = st.2 x := by
  intro L
  induction L with
  | nil => intro st x _; exact ⟨rfl, rfl⟩
  | cons v rest ih =>
      intro st x hx
      have hxv : x ≠ v := fun h => hx (h ▸ List.mem_cons_self v rest)
      have hxr : x ∉ rest := fun h => hx (List.mem_cons_of_mem v h)
      unfold soFold
      refine ⟨?_, ?_⟩
      · rw [(ih _ x hxr).1]
        exact Function.update_noteq hxv _ _
      · rw [(ih _ x hxr).2]
        exact Function.update_noteq hxv _ _

lemma soFold_append (links : List ((ℕ × ℕ) × ℤ)) (pick : ℕ → Option ℕ)
    (L1 L2 : List ℕ) (st : (ℕ → ℤ) × (ℕ → List ℕ)) :
    soFold links pick (L1 ++ L2) st
      = soFold links pick L2 (soFold links pick L1 st) := by
  induction L1 generalizing st with
  | nil => rfl
  | cons v rest ih => exact ih _

lemma inNbrs_edge {links : List ((ℕ × ℕ) × ℤ)} {n v : ℕ}
    (h : n ∈ inNbrs links v) : (n, v) ∈ linkKeys links := by
  unfold inNbrs at h
  obtain ⟨k, hk, rfl⟩ := List.mem_map.mp h
  obtain ⟨hk1, hk2⟩ := List.mem_filter.mp hk
  have : k.2 = v := by simpa using hk2
  rw [show k = (k.1, v) from by rw [← this]] at hk1
  exact hk1

lemma edge_mem_verts {links : List ((ℕ × ℕ) × ℤ)} {n v : ℕ}
    (h : (n, v) ∈ linkKeys links) :
    n ∈ vertsOf links ∧ v ∈ vertsOf links := by
  unfold vertsOf
  constructor
  · rw [List.mem_dedup]
    exact List.mem_flatMap.mpr ⟨(n, v), h, by simp⟩
  · rw [List.mem_dedup]
    exact List.mem_flatMap.mpr ⟨(n, v), h, by simp⟩

lemma idxOf_append {a : ℕ} {l1 l2 : List ℕ} (h : a ∉ l1) :
    (l1 ++ l2).indexOf a = l1.length + l2.indexOf a := by
  induction l1 with
  | nil => simp
  | cons b l1 ih =>
      have hba : ¬ (b == a) = true := by
        simp only [beq_iff_eq]
        intro hc
        exact h (hc ▸ List.mem_cons_self b l1)
      rw [List.cons_append, List.length_cons]
      rw [List.indexOf_cons]
      simp only [hba, cond_false]
      rw [ih (fun hc => h (List.mem_cons_of_mem b hc))]
      omega

lemma mem_pre_of_idx_lt {n v : ℕ} {pre post : List ℕ}
    (hnd : (pre ++ v :: post).Nodup) (hn : n ∈ pre ++ v :: post)
    (hidx : (pre ++ v :: post).indexOf n < (pre ++ v :: post).indexOf v) :
    n ∈ pre := by
  have hvpre : v ∉ pre := by
    intro hc
    exact (List.nodup_append.mp hnd).2.2 hc (List.mem_cons_self v post)
  have hvidx : (pre ++ v :: post).indexOf v = pre.length := by
    rw [idxOf_append hvpre]
    simp
  by_contra hnpre
  rw [idxOf_append hnpre, hvidx] at hidx
  omega

/-- The final state agrees, on every vertex occurring strictly before
`v`, with the state reached just before processing `v`. -/
lemma soState_pre_agree (links : List ((ℕ × ℕ) × ℤ))
    (pick : ℕ → Option ℕ) {v n : ℕ} {pre post : List ℕ}
    (hnd : (pre ++ v :: post).Nodup) (hn : n ∈ pre ++ v :: post)
    (hidx : (pre ++ v :: post).indexOf n
      < (pre ++ v :: post).indexOf v) :
    (soState links pick (pre ++ v :: post)).1 n
        = (soFold links pick pre (fun _ => 0, fun _ => [])).1 n
      ∧ (soState links pick (pre ++ v :: post)).2 n
        = (soFold links pick pre (fun _ => 0, fun _ => [])).2 n := by
  have hnpre : n ∈ pre := mem_pre_of_idx_lt hnd hn hidx
  have hnpost : n ∉ v :: post :=
    fun hc => (List.nodup_append.mp hnd).2.2 hnpre hc
  unfold soState
  rw [soFold_append]
  exact soFold_unchanged links pick (v :: post) _ n hnpost

/-- The final potential of each processed vertex satisfies the
minimum-over-in-neighbours fixpoint with the *final* potentials of its
in-neighbours (which are processed earlier and never updated again). -/
lemma soState_pot_eq (links : List ((ℕ × ℕ) × ℤ)) (pick : ℕ → Option ℕ)
    (order : List ℕ) (hnd : order.Nodup)
    (hTopo : ∀ k ∈ linkKeys links,
      k.1 ∈ order ∧ k.2 ∈ order ∧ order.indexOf k.1 < order.indexOf k.2)
    {v : ℕ} (hv : v ∈ order) :
    (soState links pick order).1 v
      = (((inNbrs links v).map
          (fun n => (soState links pick order).1 n
            + cval links n v)).min?).getD 0 := by
  obtain ⟨pre, post, rfl⟩ := List.append_of_mem hv
  have hvpost : v ∉ post :=
    (List.nodup_cons.mp (List.nodup_append.mp hnd).2.1).1
  have hmain : (soState links pick (pre ++ v :: post)).1 v
      = (((inNbrs links v).map
          (fun n => (soFold links pick pre (fun _ => 0, fun _ => [])).1 n
            + cval links n v)).min?).getD 0 := by
    unfold soState
    rw [soFold_append]
    show (soFold links pick (v :: post) _).1 v = _
    rw [show soFold links pick (v :: post)
        (soFold links pick pre (fun _ => 0, fun _ => []))
        = soFold links pick post _ from rfl]
    rw [(soFold_unchanged links pick post _ v hvpost).1]
    exact Function.update_same _ _ _
  rw [hmain]
  congr 2
  refine List.map_congr_left (fun n hn => ?_)
  have hedge := inNbrs_edge hn
  obtain ⟨hn1, hn2, hidx⟩ := hTopo (n, v) hedge
  rw [(soState_pre_agree links pick (n := n) hnd hn1 hidx).1]

/-- The final path of each processed vertex extends the final path of
its chosen predecessor. -/
lemma soState_path_eq (links : List ((ℕ × ℕ) × ℤ)) (pick : ℕ → Option ℕ)
    (order : List ℕ) (hnd : order.Nodup)
    (hTopo : ∀ k ∈ linkKeys links,
      k.1 ∈ order ∧ k.2 ∈ order ∧ order.indexOf k.1 < order.indexOf k.2)
    (hPickMem : ∀ v ∈ order, ∀ n, pick v = some n → n ∈ inNbrs links v)
    {v : ℕ} (hv : v ∈ order) :
    (soState links pick order).2 v
      = (match pick v with
          | some n => (soState links pick order).2 n
          | none => []) ++ [v] := by
  obtain ⟨pre, post, horder⟩ := List.append_of_mem hv
  subst horder
  have hvpost : v ∉ post :=
    (List.nodup_cons.mp (List.nodup_append.mp hnd).2.1).1
  have hmain : (soState links pick (pre ++ v :: post)).2 v
      = (match pick v with
          | some n => (soFold links pick pre (fun _ => 0, fun _ => [])).2 n
          | none => []) ++ [v] := by
    unfold soState
    rw [soFold_append]
    show (soFold links pick (v :: post) _).2 v = _
    rw [show soFold links pick (v :: post)
        (soFold links pick pre (fun _ => 0, fun _ => []))
        = soFold links pick post _ from rfl]
    rw [(soFold_unchanged links pick post _ v hvpost).2]
    exact Function.update_same _ _ _
  rw [hmain]
  cases hpick : pick v with
  | none => rfl
  | some n =>
      have hedge := inNbrs_edge (hPickMem v hv n hpick)
      obtain ⟨hn1, hn2, hidx⟩ := hTopo (n, v) hedge
      show (soFold links pick pre (fun _ => 0, fun _ => [])).2 n ++ [v]
        = (soState links pick (pre ++ v :: post)).2 n ++ [v]
      rw [(soState_pre_agree links pick (n := n) hnd hn1 hidx).2]

/-- Unprocessed vertices keep the default potential `0` and path `[]`. -/
lemma soState_default (links : List ((ℕ × ℕ) × ℤ)) (pick : ℕ → Option ℕ)
    (order : List ℕ) {x : ℕ} (hx : x ∉ order) :
    (soState links pick order).1 x = 0
      ∧ (soState links pick order).2 x = [] :=
  soFold_unchanged links pick order _ x hx

end GenFn

namespace GenFn

lemma fmin_of_card_one {s : Finset ℕ} (h : s.card = 1) : s = {fmin s} := by
  obtain ⟨a, rfl⟩ := Finset.card_eq_one.mp h
  have : fmin {a} = a := by
    unfold fmin
    rw [Finset.min_singleton]
    rfl
  rw [this]

lemma fmin_mem_of_card_one {s : Finset ℕ} (h : s.card = 1) : fmin s ∈ s := by
  obtain ⟨a, rfl⟩ := Finset.card_eq_one.mp h
  have ha : fmin {a} = a := by
    unfold fmin
    rw [Finset.min_singleton]
    rfl
  rw [ha]
  exact Finset.mem_singleton_self a

lemma chain_not_allNonneg {d : ℕ} {e : List ℤ} (hc : isChainShape d e) :
    ¬ allNonnegV d e := by
  intro hna
  have hb := fmin_mem_of_card_one hc.2.1
  obtain ⟨hbr, hbc⟩ := Finset.mem_filter.mp hb
  have := hna (fmin (monesSet d e) + 1)
    (by simpa using Nat.succ_lt_succ (Finset.mem_range.mp hbr))
  omega

lemma chain_not_lower {d : ℕ} {e : List ℤ} (hc : isChainShape d e) :
    ¬ isLowerShape d e := by
  intro hl
  have h1 := hc.2.1
  rw [hl.2.1] at h1
  simp at h1

lemma lower_neg_const {d : ℕ} {e : List ℤ} (hna : ¬ allNonnegV d e)
    (hl : isLowerShape d e) : coeff e 0 < 0 := by
  by_contra hge
  refine hna (fun j hj => ?_)
  rcases j with _ | i
  · omega
  · have hir : i ∈ Finset.range d := by
      simp only [Finset.mem_range] at hj ⊢
      omega
    by_cases h1 : coeff e (i + 1) = 1
    · omega
    · have hm : coeff e (i + 1) ≠ -1 := by
        intro hc
        have : i ∈ monesSet d e := Finset.mem_filter.mpr ⟨hir, hc⟩
        rw [hl.2.1] at this
        exact absurd this (Finset.not_mem_empty i)
      have hbig : ¬ 2 ≤ (coeff e (i + 1)).natAbs := by
        intro hc
        have : i ∈ bigSet d e := Finset.mem_filter.mpr ⟨hir, hc⟩
        rw [hl.2.2] at this
        exact absurd this (Finset.not_mem_empty i)
      omega

lemma classify_fold (d : ℕ) (l : List (List ℤ))
    (acc : List (List ℤ) × List ((ℕ × ℕ) × ℤ)) :
    l.foldl (classifyAux d) acc
      = (acc.1 ++ l.filter (fun e => ¬ allNonnegV d e ∧ ¬ isChainShape d e),
         acc.2 ++ (l.filter (fun e => isChainShape d e)).map
           (fun e => ((theMone d e, theOne d e), coeff e 0))) := by
  induction l generalizing acc with
  | nil => simp
  | cons e l ih =>
      rw [List.foldl_cons, ih]
      by_cases hna : allNonnegV d e
      · have hnc : ¬ isChainShape d e := fun hc => chain_not_allNonneg hc hna
        have h1 : classifyAux d acc e = acc := by
          unfold classifyAux
          rw [if_pos hna]
        rw [h1]
        rw [List.filter_cons_of_neg (by simp [hna]),
          List.filter_cons_of_neg (by simp [hnc])]
      · by_cases hl : isLowerShape d e
        · have hnc : ¬ isChainShape d e := fun hc => chain_not_lower hc hl
          have h1 : classifyAux d acc e = (acc.1 ++ [e], acc.2) := by
            unfold classifyAux
            rw [if_neg hna, if_pos hl, if_pos (lower_neg_const hna hl)]
          rw [h1]
          rw [List.filter_cons_of_pos (by simp [hna, hnc]),
            List.filter_cons_of_neg (by simp [hnc])]
          simp
        · by_cases hc : isChainShape d e
          · have h1 : classifyAux d acc e
                = (acc.1, acc.2 ++ [((theMone d e, theOne d e), coeff e 0)]) := by
              unfold classifyAux
              rw [if_neg hna, if_neg hl, if_pos hc]
            rw [h1]
            rw [List.filter_cons_of_neg (by simp [hc]),
              List.filter_cons_of_pos (by simp [hc])]
            simp
          · have h1 : classifyAux d acc e = (acc.1 ++ [e], acc.2) := by
              unfold classifyAux
              rw [if_neg hna, if_neg hl, if_neg hc]
            rw [h1]
            rw [List.filter_cons_of_pos (by simp [hna, hc]),
              List.filter_cons_of_neg (by simp [hc])]
            simp

lemma classify_fst (d : ℕ) (l : List (List ℤ)) :
    (classify d l).1
      = l.filter (fun e => ¬ allNonnegV d e ∧ ¬ isChainShape d e) := by
  unfold classify
  rw [classify_fold]
  simp

lemma classify_snd (d : ℕ) (l : List (List ℤ)) :
    (classify d l).2
      = (l.filter (fun e => isChainShape d e)).map
          (fun e => ((theMone d e, theOne d e), coeff e 0)) := by
  unfold classify
  rw [classify_fold]
  simp

end GenFn

namespace GenFn

lemma linkVal_some_mem {links : List ((ℕ × ℕ) × ℤ)} {n v : ℕ} {c : ℤ}
    (h : linkVal links n v = some c) : ((n, v), c) ∈ links := by
  unfold linkVal at h
  obtain ⟨x, hx, hxc⟩ := Option.map_eq_some'.mp h
  have hxmem : x ∈ links := (List.mem_reverse).mp (List.mem_of_find?_eq_some hx)
  have hxkey : x.1 = (n, v) := by simpa using List.find?_some hx
  rw [show ((n, v), c) = x from by
    rw [← hxkey, ← hxc]]
  exact hxmem

lemma edge_linkVal {links : List ((ℕ × ℕ) × ℤ)} {n v : ℕ}
    (h : (n, v) ∈ linkKeys links) : ∃ c, linkVal links n v = some c := by
  unfold linkKeys at h
  obtain ⟨x, hx, hxk⟩ := List.mem_map.mp (List.mem_dedup.mp h)
  have : ∃ y, List.find? (fun z => z.1 = (n, v)) links.reverse = some y := by
    rw [← Option.isSome_iff_exists]
    rw [List.find?_isSome]
    exact ⟨x, List.mem_reverse.mpr hx, by simp [hxk]⟩
  obtain ⟨y, hy⟩ := this
  exact ⟨y.2, by unfold linkVal; rw [hy]; rfl⟩

lemma cval_edge_mem {links : List ((ℕ × ℕ) × ℤ)} {n v : ℕ}
    (h : (n, v) ∈ linkKeys links) : ((n, v), cval links n v) ∈ links := by
  obtain ⟨c, hc⟩ := edge_linkVal h
  have : cval links n v = c := by unfold cval; rw [hc]; rfl
  rw [this]
  exact linkVal_some_mem hc

/-- Every edge of the chain graph comes from an actual chain inequality
whose stored constant is the dictionary value. -/
lemma link_source (d : ℕ) (ineqs : List (List ℤ)) {n v : ℕ}
    (h : (n, v) ∈ linkKeys (classify d ineqs).2) :
    ∃ e ∈ ineqs, isChainShape d e ∧ theMone d e = n ∧ theOne d e = v
      ∧ coeff e 0 = cval (classify d ineqs).2 n v := by
  have hmem := cval_edge_mem h
  obtain ⟨c, hcval⟩ : ∃ c, cval (classify d ineqs).2 n v = c := ⟨_, rfl⟩
  rw [hcval] at hmem
  rw [classify_snd] at hmem
  obtain ⟨e, he, heq⟩ := List.mem_map.mp hmem
  obtain ⟨he1, he2⟩ := List.mem_filter.mp he
  have hsh : isChainShape d e := by simpa using he2
  have h1 : theMone d e = n := by
    have := congrArg (fun x => x.1.1) heq
    simpa using this
  have h2 : theOne d e = v := by
    have := congrArg (fun x => x.1.2) heq
    simpa using this
  have h3 : coeff e 0 = cval (classify d ineqs).2 n v := by
    rw [hcval]
    have := congrArg (fun x => x.2) heq
    simpa using this
  exact ⟨e, he1, hsh, h1, h2, h3⟩

lemma cval_nonpos (d : ℕ) (ineqs : List (List ℤ)) {n v : ℕ}
    (h : (n, v) ∈ linkKeys (classify d ineqs).2) :
    cval (classify d ineqs).2 n v ≤ 0 := by
  obtain ⟨e, -, hsh, -, -, hval⟩ := link_source d ineqs h
  rw [← hval]
  exact hsh.2.2.2

lemma verts_bound (d : ℕ) (ineqs : List (List ℤ)) {x : ℕ}
    (h : x ∈ vertsOf (classify d ineqs).2) : 1 ≤ x ∧ x ≤ d := by
  unfold vertsOf at h
  obtain ⟨k, hk, hxk⟩ := List.mem_flatMap.mp (List.mem_dedup.mp h)
  obtain ⟨e, -, hsh, h1, h2, -⟩ := link_source d ineqs
    (show (k.1, k.2) ∈ linkKeys (classify d ineqs).2 from hk)
  have hone : fmin (onesSet d e) ∈ onesSet d e := fmin_mem_of_card_one hsh.1
  have hmone : fmin (monesSet d e) ∈ monesSet d e :=
    fmin_mem_of_card_one hsh.2.1
  have honeb := Finset.mem_range.mp (Finset.mem_filter.mp hone).1
  have hmoneb := Finset.mem_range.mp (Finset.mem_filter.mp hmone).1
  have hx : x = k.1 ∨ x = k.2 := by
    rcases List.mem_cons.mp hxk with h | h
    · exact Or.inl h
    · exact Or.inr (by simpa using h)
  unfold theMone at h1
  unfold theOne at h2
  rcases hx with rfl | rfl
  · omega
  · omega

/-- The value of a chain inequality at a point: constant plus the `+1`
coordinate minus the `-1` coordinate. -/
lemma chain_aeval {d : ℕ} {e : List ℤ} (hc : isChainShape d e)
    (u : ℕ → ℤ) :
    aeval d e u
      = coeff e 0 + u (fmin (onesSet d e)) - u (fmin (monesSet d e)) := by
  set a := fmin (onesSet d e) with ha
  set b := fmin (monesSet d e) with hb
  have hone : a ∈ onesSet d e := fmin_mem_of_card_one hc.1
  have hmone : b ∈ monesSet d e := fmin_mem_of_card_one hc.2.1
  have har := (Finset.mem_filter.mp hone).1
  have hac : coeff e (a + 1) = 1 := by
    have := (Finset.mem_filter.mp hone).2
    simpa using this
  have hbr := (Finset.mem_filter.mp hmone).1
  have hbc : coeff e (b + 1) = -1 := by
    have := (Finset.mem_filter.mp hmone).2
    simpa using this
  have hab : a ≠ b := by
    intro hcontra
    rw [hcontra] at hac
    omega
  have hzero : ∀ i ∈ Finset.range d, i ∉ ({a, b} : Finset ℕ) →
      coeff e (i + 1) * u i = 0 := by
    intro i hir hinot
    have hia : i ≠ a := fun hh => hinot (by simp [hh])
    have hib : i ≠ b := fun hh => hinot (by simp [hh])
    have hi1 : coeff e (i + 1) ≠ 1 := by
      intro hcc
      exact hia (by
        have h1 : i ∈ onesSet d e := Finset.mem_filter.mpr ⟨hir, by simpa using hcc⟩
        have hsing := fmin_of_card_one hc.1
        rw [hsing, ← ha] at h1
        simpa using h1)
    have hi2 : coeff e (i + 1) ≠ -1 := by
      intro hcc
      exact hib (by
        have h1 : i ∈ monesSet d e := Finset.mem_filter.mpr ⟨hir, by simpa using hcc⟩
        have hsing := fmin_of_card_one hc.2.1
        rw [hsing, ← hb] at h1
        simpa using h1)
    have hi3 : ¬ 2 ≤ (coeff e (i + 1)).natAbs := by
      intro hcc
      have h1 : i ∈ bigSet d e := Finset.mem_filter.mpr ⟨hir, by simpa using hcc⟩
      rw [hc.2.2.1] at h1
      exact absurd h1 (Finset.not_mem_empty i)
    have : coeff e (i + 1) = 0 := by omega
    rw [this, zero_mul]
  have hsub : ({a, b} : Finset ℕ) ⊆ Finset.range d := by
    intro x hx
    rcases Finset.mem_insert.mp hx with rfl | hx
    · exact Finset.mem_range.mpr (Finset.mem_range.mp har)
    · rw [Finset.mem_singleton.mp hx]
      exact hbr
  unfold aeval
  rw [← Finset.sum_subset hsub hzero, Finset.sum_pair hab, hac, hbc]
  ring

lemma allNonneg_aeval {d : ℕ} {e : List ℤ} (h : allNonnegV d e)
    {u : ℕ → ℤ} (hu : okPoint d u) : 0 ≤ aeval d e u := by
  unfold aeval
  have h0 : 0 ≤ coeff e 0 := h 0 (Finset.mem_range.mpr (by omega))
  have hsum : 0 ≤ ∑ i ∈ Finset.range d, coeff e (i + 1) * u i := by
    refine Finset.sum_nonneg (fun i hi => ?_)
    have hir := Finset.mem_range.mp hi
    exact mul_nonneg (h (i + 1) (Finset.mem_range.mpr (by omega))) (hu i hi)
  omega

/-- Summing a function of the 1-based index over the coordinates whose
successor lies in a duplicate-free vertex list equals the sum over the
list. -/
lemma sum_filter_list (d : ℕ) (S : List ℕ)
    (hB : ∀ p ∈ S, 1 ≤ p ∧ p ≤ d) (hN : S.Nodup) (g : ℕ → ℤ) :
    ∑ j ∈ (Finset.range d).filter (fun j => (j + 1) ∈ S), g (j + 1)
      = (S.map g).sum := by
  induction S with
  | nil => simp
  | cons p ps ih =>
      have honep : 1 ≤ p ∧ p ≤ d := hB p (List.mem_cons_self p ps)
      have hnotin : p ∉ ps := (List.nodup_cons.mp hN).1
      have hsplit : (Finset.range d).filter (fun j => (j + 1) ∈ p :: ps)
          = ((Finset.range d).filter (fun j => j + 1 = p))
            ∪ ((Finset.range d).filter (fun j => (j + 1) ∈ ps)) := by
        rw [← Finset.filter_or]
        exact Finset.filter_congr (fun j _ => by simp [List.mem_cons])
      have hdisj : Disjoint ((Finset.range d).filter (fun j => j + 1 = p))
          ((Finset.range d).filter (fun j => (j + 1) ∈ ps)) := by
        rw [Finset.disjoint_filter]
        intro j _ hjp hjps
        exact hnotin (hjp ▸ hjps)
      have hsingle : (Finset.range d).filter (fun j => j + 1 = p)
          = {p - 1} := by
        ext j
        simp only [Finset.mem_filter, Finset.mem_range, Finset.mem_singleton]
        omega
      rw [hsplit, Finset.sum_union hdisj, hsingle, Finset.sum_singleton,
        ih (fun q hq => hB q (List.mem_cons_of_mem p hq))
          (List.nodup_cons.mp hN).2]
      have hp1 : p - 1 + 1 = p := by omega
      rw [hp1, List.map_cons, List.sum_cons]

end GenFn


namespace GenFn

/-- Sum of a point's coordinates along a list of 1-based vertices. -/
def pathSum (l : List ℕ) (w : ℕ → ℤ) : ℤ := (l.map (fun u => w (u - 1))).sum

lemma foldl_min_le_init : ∀ (l : List ℤ) (a : ℤ), l.foldl min a ≤ a := by
  intro l
  induction l with
  | nil => intro a; exact le_refl a
  | cons b bs ih =>
      intro a
      calc (b :: bs).foldl min a = bs.foldl min (min a b) := rfl
        _ ≤ min a b := ih _
        _ ≤ a := min_le_left _ _

lemma foldl_min_le : ∀ (l : List ℤ) (a x : ℤ), x ∈ l → l.foldl min a ≤ x := by
  intro l
  induction l with
  | nil => intro a x hx; exact absurd hx (List.not_mem_nil x)
  | cons b bs ih =>
      intro a x hx
      rcases List.mem_cons.mp hx with rfl | hx
      · calc (x :: bs).foldl min a = bs.foldl min (min a x) := rfl
          _ ≤ min a x := foldl_min_le_init _ _
          _ ≤ x := min_le_right _ _
      · exact ih _ x hx

lemma min?_getD_le {l : List ℤ} {x : ℤ} (hx : x ∈ l) :
    l.min?.getD 0 ≤ x := by
  cases l with
  | nil => exact absurd hx (List.not_mem_nil x)
  | cons a as =>
      rw [List.min?_cons']
      show as.foldl min a ≤ x
      rcases List.mem_cons.mp hx with rfl | hx
      · exact foldl_min_le_init _ _
      · exact foldl_min_le _ _ _ hx

lemma edge_inNbrs {links : List ((ℕ × ℕ) × ℤ)} {n v : ℕ}
    (h : (n, v) ∈ linkKeys links) : n ∈ inNbrs links v := by
  unfold inNbrs
  exact List.mem_map.mpr ⟨(n, v), List.mem_filter.mpr ⟨h, by simp⟩, rfl⟩

/-- All potentials are nonpositive when all edge weights are. -/
lemma pot_nonpos (links : List ((ℕ × ℕ) × ℤ)) (pick : ℕ → Option ℕ)
    (order : List ℕ) (hnd : order.Nodup)
    (hTopo : ∀ k ∈ linkKeys links,
      k.1 ∈ order ∧ k.2 ∈ order ∧ order.indexOf k.1 < order.indexOf k.2)
    (hCval : ∀ k ∈ linkKeys links, cval links k.1 k.2 ≤ 0) :
    ∀ x, (soState links pick order).1 x ≤ 0 := by
  have main : ∀ N, ∀ x ∈ order, order.indexOf x < N →
      (soState links pick order).1 x ≤ 0 := by
    intro N
    induction N with
    | zero => intro x _ h; exact absurd h (Nat.not_lt_zero _)
    | succ N ih =>
        intro x hx hxN
        rw [soState_pot_eq links pick order hnd hTopo hx]
        cases hnb : inNbrs links x with
        | nil => simp
        | cons n ns =>
            have hn : n ∈ inNbrs links x := hnb ▸ List.mem_cons_self n ns
            have hedge := inNbrs_edge hn
            obtain ⟨hn1, _, hidx⟩ := hTopo (n, x) hedge
            have hidx' : order.indexOf n < order.indexOf x := hidx
            have hne : (soState links pick order).1 n + cval links n x
                ∈ (n :: ns).map
                  (fun m => (soState links pick order).1 m + cval links m x) :=
              List.mem_map.mpr ⟨n, List.mem_cons_self n ns, rfl⟩
            refine le_trans (min?_getD_le hne) ?_
            have h1 : (soState links pick order).1 n ≤ 0 :=
              ih n hn1 (by omega)
            have h2 : cval links n x ≤ 0 := hCval (n, x) hedge
            omega
  intro x
  by_cases hx : x ∈ order
  · exact main (order.indexOf x + 1) x hx (Nat.lt_succ_self _)
  · rw [(soState_default links pick order hx).1]

/-- A vertex with no in-neighbours has potential `0`. -/
lemma pot_of_no_nbrs (links : List ((ℕ × ℕ) × ℤ)) (pick : ℕ → Option ℕ)
    (order : List ℕ) (hnd : order.Nodup)
    (hTopo : ∀ k ∈ linkKeys links,
      k.1 ∈ order ∧ k.2 ∈ order ∧ order.indexOf k.1 < order.indexOf k.2)
    {x : ℕ} (hx : x ∈ order) (hnb : inNbrs links x = []) :
    (soState links pick order).1 x = 0 := by
  rw [soState_pot_eq links pick order hnd hTopo hx, hnb]
  simp

end GenFn

namespace GenFn

lemma verts_mem_order {links : List ((ℕ × ℕ) × ℤ)} {order : List ℕ}
    (hTopo : ∀ k ∈ linkKeys links,
      k.1 ∈ order ∧ k.2 ∈ order ∧ order.indexOf k.1 < order.indexOf k.2)
    {x : ℕ} (hx : x ∈ vertsOf links) : x ∈ order := by
  unfold vertsOf at hx
  obtain ⟨k, hk, hxk⟩ := List.mem_flatMap.mp (List.mem_dedup.mp hx)
  rcases List.mem_cons.mp hxk with rfl | hxk
  · exact (hTopo k hk).1
  · rw [show x = k.2 from by simpa using hxk]
    exact (hTopo k hk).2.1

/-- Structure of the computed paths: each path is nonempty, ends in its
vertex, repeats no vertex, consists of earlier-or-equal vertices of the
chain graph, and contains the path of each of its members as a prefix. -/
lemma path_spec (links : List ((ℕ × ℕ) × ℤ)) (pick : ℕ → Option ℕ)
    (order : List ℕ) (hnd : order.Nodup)
    (hTopo : ∀ k ∈ linkKeys links,
      k.1 ∈ order ∧ k.2 ∈ order ∧ order.indexOf k.1 < order.indexOf k.2)
    (hPickMem : ∀ v ∈ order, ∀ n, pick v = some n → n ∈ inNbrs links v) :
    ∀ v ∈ order,
      ((soState links pick order).2 v).getLast? = some v
      ∧ ((soState links pick order).2 v).Nodup
      ∧ ∀ u ∈ (soState links pick order).2 v,
          u ∈ order ∧ order.indexOf u ≤ order.indexOf v
          ∧ (u = v ∨ u ∈ vertsOf links)
          ∧ ∃ t, (soState links pick order).2 v
              = (soState links pick order).2 u ++ t := by
  have main : ∀ N, ∀ v ∈ order, order.indexOf v < N →
      ((soState links pick order).2 v).getLast? = some v
      ∧ ((soState links pick order).2 v).Nodup
      ∧ ∀ u ∈ (soState links pick order).2 v,
          u ∈ order ∧ order.indexOf u ≤ order.indexOf v
          ∧ (u = v ∨ u ∈ vertsOf links)
          ∧ ∃ t, (soState links pick order).2 v
              = (soState links pick order).2 u ++ t := by
    intro N
    induction N with
    | zero => intro v _ h; exact absurd h (Nat.not_lt_zero _)
    | succ N ih =>
        intro v hv hvN
        have hpath := soState_path_eq links pick order hnd hTopo hPickMem hv
        cases hpick : pick v with
        | none =>
            rw [hpick] at hpath
            simp only [List.nil_append] at hpath
            refine ⟨?_, ?_, ?_⟩
            · rw [hpath]; rfl
            · rw [hpath]; exact List.nodup_singleton v
            · intro u hu
              rw [hpath] at hu
              have huv : u = v := by simpa using hu
              subst huv
              exact ⟨hv, le_refl _, Or.inl rfl, [], by rw [hpath]; simp⟩
        | some n =>
            rw [hpick] at hpath
            have hpath2 : (soState links pick order).2 v
                = (soState links pick order).2 n ++ [v] := hpath
            clear hpath
            have hpath := hpath2
            have hn : n ∈ inNbrs links v := hPickMem v hv n hpick
            have hedge := inNbrs_edge hn
            obtain ⟨hn1, _, hidx⟩ := hTopo (n, v) hedge
            have hidx' : order.indexOf n < order.indexOf v := hidx
            have hnord : n ∈ order := hn1
            obtain ⟨hlastn, hnodn, hmemn⟩ := ih n hnord (by omega)
            have hvnotin : v ∉ (soState links pick order).2 n := by
              intro hc
              have := (hmemn v hc).2.1
              omega
            refine ⟨?_, ?_, ?_⟩
            · rw [hpath]
              exact List.getLast?_concat _
            · rw [hpath]
              rw [List.nodup_append]
              refine ⟨hnodn, List.nodup_singleton v, ?_⟩
              intro a ha hav
              have : a = v := by simpa using hav
              exact hvnotin (this ▸ ha)
            · intro u hu
              rw [hpath] at hu
              rcases List.mem_append.mp hu with hun | huv
              · obtain ⟨hu1, hu2, hu3, t, ht⟩ := hmemn u hun
                refine ⟨hu1, by omega, ?_, t ++ [v], ?_⟩
                · right
                  rcases hu3 with rfl | h
                  · exact (edge_mem_verts hedge).1
                  · exact h
                · rw [hpath, ht, List.append_assoc]
              · have : u = v := by simpa using huv
                subst this
                exact ⟨hv, le_refl _, Or.inl rfl, [], by simp⟩
  intro v hv
  exact main (order.indexOf v + 1) v hv (Nat.lt_succ_self _)

end GenFn

namespace GenFn

lemma soPsi_notvert (d : ℕ) (links : List ((ℕ × ℕ) × ℤ))
    (pick : ℕ → Option ℕ) (order : List ℕ) (vv : ℕ → ℤ) {i : ℕ}
    (h : (i + 1) ∉ vertsOf links) :
    soPsi d links pick order vv i = vv i := by
  unfold soPsi
  rw [if_neg h]

lemma soPsi_vert_some (d : ℕ) (links : List ((ℕ × ℕ) × ℤ))
    (pick : ℕ → Option ℕ) (order : List ℕ) (vv : ℕ → ℤ) {x n : ℕ}
    (hx1 : 1 ≤ x) (hxv : x ∈ vertsOf links) (hpick : pick x = some n) :
    soPsi d links pick order vv (x - 1)
      = (vv (x - 1) + (soState links pick order).1 x)
        - (vv (n - 1) + (soState links pick order).1 n) := by
  unfold soPsi
  rw [show x - 1 + 1 = x from by omega, if_pos hxv, hpick]

lemma soPsi_vert_none (d : ℕ) (links : List ((ℕ × ℕ) × ℤ))
    (pick : ℕ → Option ℕ) (order : List ℕ) (vv : ℕ → ℤ) {x : ℕ}
    (hx1 : 1 ≤ x) (hxv : x ∈ vertsOf links) (hpick : pick x = none) :
    soPsi d links pick order vv (x - 1)
      = vv (x - 1) + (soState links pick order).1 x := by
  unfold soPsi
  rw [show x - 1 + 1 = x from by omega, if_pos hxv, hpick]
  show vv (x - 1) + (soState links pick order).1 x - 0 = _
  ring

/-- Telescoping: summing the inverse substitution along the path of a
vertex recovers that vertex's coordinate shifted by its potential. -/
lemma psi_pathSum (d : ℕ) (links : List ((ℕ × ℕ) × ℤ))
    (pick : ℕ → Option ℕ) (order : List ℕ) (hnd : order.Nodup)
    (hTopo : ∀ k ∈ linkKeys links,
      k.1 ∈ order ∧ k.2 ∈ order ∧ order.indexOf k.1 < order.indexOf k.2)
    (hPickMem : ∀ v ∈ order, ∀ n, pick v = some n → n ∈ inNbrs links v)
    (hVB : ∀ x ∈ vertsOf links, 1 ≤ x) (vv : ℕ → ℤ) :
    ∀ x ∈ order, x ∈ vertsOf links →
      pathSum ((soState links pick order).2 x) (soPsi d links pick order vv)
        = vv (x - 1) + (soState links pick order).1 x := by
  have main : ∀ N, ∀ x ∈ order, order.indexOf x < N → x ∈ vertsOf links →
      pathSum ((soState links pick order).2 x) (soPsi d links pick order vv)
        = vv (x - 1) + (soState links pick order).1 x := by
    intro N
    induction N with
    | zero => intro x _ h; exact absurd h (Nat.not_lt_zero _)
    | succ N ih =>
        intro x hx hxN hxv
        have hpath := soState_path_eq links pick order hnd hTopo hPickMem hx
        cases hpick : pick x with
        | none =>
            rw [hpick] at hpath
            simp only [List.nil_append] at hpath
            rw [hpath]
            unfold pathSum
            simp only [List.map_cons, List.map_nil, List.sum_cons,
              List.sum_nil, add_zero]
            exact soPsi_vert_none d links pick order vv (hVB x hxv) hxv hpick
        | some n =>
            rw [hpick] at hpath
            have hpath2 : (soState links pick order).2 x
                = (soState links pick order).2 n ++ [x] := hpath
            have hn : n ∈ inNbrs links x := hPickMem x hx n hpick
            have hedge := inNbrs_edge hn
            obtain ⟨hn1, _, hidx⟩ := hTopo (n, x) hedge
            have hidx' : order.indexOf n < order.indexOf x := hidx
            have hnv : n ∈ vertsOf links := (edge_mem_verts hedge).1
            have hihn := ih n hn1 (by omega) hnv
            rw [hpath2]
            unfold pathSum
            rw [List.map_append, List.sum_append]
            unfold pathSum at hihn
            rw [hihn]
            simp only [List.map_cons, List.map_nil, List.sum_cons,
              List.sum_nil, add_zero]
            rw [soPsi_vert_some d links pick order vv (hVB x hxv) hxv hpick]
            ring
  intro x hx hxv
  exact main (order.indexOf x + 1) x hx (Nat.lt_succ_self _) hxv

lemma soPhi_free (d : ℕ) (links : List ((ℕ × ℕ) × ℤ))
    (pick : ℕ → Option ℕ) (order : List ℕ) (w : ℕ → ℤ) {i : ℕ}
    (hx : (i + 1) ∉ vertsOf links) (hid : i < d) :
    soPhi d links pick order w i = w i := by
  unfold soPhi
  have hT0 : soT links pick order 0 (i + 1) = 0 := by
    unfold soT
    rw [if_neg (show ¬ ((0:ℕ) = i + 1) from by omega)]
    rw [if_neg (show ¬ ((0:ℕ) = 0 ∧ (i + 1) ∈ vertsOf links) from
      fun hc => hx hc.2)]
    rw [if_neg (show ¬ ((i + 1) ∈ vertsOf links
      ∧ (0:ℕ) ∈ (soState links pick order).2 (i + 1)) from fun hc => hx hc.1)]
  have hTu : ∀ u : ℕ, soT links pick order (u + 1) (i + 1)
      = if u = i then 1 else 0 := by
    intro u
    unfold soT
    by_cases hui : u = i
    · subst hui
      rw [if_pos rfl, if_pos rfl]
    · rw [if_neg (show ¬ (u + 1 = i + 1) from by omega)]
      rw [if_neg (show ¬ (u + 1 = 0 ∧ (i + 1) ∈ vertsOf links) from
        fun hc => by omega)]
      rw [if_neg (show ¬ ((i + 1) ∈ vertsOf links
        ∧ (u + 1) ∈ (soState links pick order).2 (i + 1)) from
        fun hc => hx hc.1)]
      rw [if_neg hui]
  rw [hT0, zero_add]
  have hsum : ∑ u ∈ Finset.range d,
      soT links pick order (u + 1) (i + 1) * w u
      = ∑ u ∈ Finset.range d, (if u = i then w u else 0) := by
    refine Finset.sum_congr rfl fun u _ => ?_
    rw [hTu u]
    by_cases hui : u = i <;> simp [hui]
  rw [hsum, Finset.sum_ite_eq' (Finset.range d) i w,
    if_pos (Finset.mem_range.mpr hid)]

lemma soPhi_vert (d : ℕ) (links : List ((ℕ × ℕ) × ℤ))
    (pick : ℕ → Option ℕ) (order : List ℕ) (w : ℕ → ℤ) {x : ℕ}
    (hx1 : 1 ≤ x) (hxv : x ∈ vertsOf links)
    (hself : x ∈ (soState links pick order).2 x)
    (hnodup : ((soState links pick order).2 x).Nodup)
    (hB : ∀ u ∈ (soState links pick order).2 x, 1 ≤ u ∧ u ≤ d) :
    soPhi d links pick order w (x - 1)
      = -((soState links pick order).1 x)
        + pathSum ((soState links pick order).2 x) w := by
  unfold soPhi
  rw [show x - 1 + 1 = x from by omega]
  have hT0 : soT links pick order 0 x
      = -((soState links pick order).1 x) := by
    unfold soT
    rw [if_neg (show ¬ ((0:ℕ) = x) from by omega), if_pos ⟨rfl, hxv⟩]
  have hTu : ∀ u : ℕ, soT links pick order (u + 1) x
      = if (u + 1) ∈ (soState links pick order).2 x then 1 else 0 := by
    intro u
    unfold soT
    by_cases hux : u + 1 = x
    · rw [if_pos hux, if_pos (hux ▸ hself)]
    · rw [if_neg hux]
      rw [if_neg (show ¬ (u + 1 = 0 ∧ x ∈ vertsOf links) from
        fun hc => by omega)]
      by_cases hp : (u + 1) ∈ (soState links pick order).2 x
      · rw [if_pos ⟨hxv, hp⟩, if_pos hp]
      · rw [if_neg (fun hc => hp hc.2), if_neg hp]
  rw [hT0]
  congr 1
  have hsum : ∑ u ∈ Finset.range d, soT links pick order (u + 1) x * w u
      = ∑ u ∈ Finset.range d,
          (if (u + 1) ∈ (soState links pick order).2 x then w u else 0) := by
    refine Finset.sum_congr rfl fun u _ => ?_
    rw [hTu u]
    by_cases hp : (u + 1) ∈ (soState links pick order).2 x <;> simp [hp]
  rw [hsum, ← Finset.sum_filter]
  have := sum_filter_list d ((soState links pick order).2 x) hB hnodup
    (fun u => w (u - 1))
  unfold pathSum
  rw [← this]
  exact Finset.sum_congr rfl fun u _ => by rw [Nat.add_sub_cancel]

end GenFn

namespace GenFn

/-- Multiplying an inequality by `T` and evaluating at `w` is evaluating
the original inequality at the substituted point `soPhi w`. -/
lemma soVec_aeval (d : ℕ) (links : List ((ℕ × ℕ) × ℤ))
    (pick : ℕ → Option ℕ) (order : List ℕ)
    (h0 : (0:ℕ) ∉ vertsOf links) (e : List ℤ) (w : ℕ → ℤ) :
    aeval d (soVec d links pick order e) w
      = aeval d e (soPhi d links pick order w) := by
  have hcoeff : ∀ j, j < d + 1 → coeff (soVec d links pick order e) j
      = ∑ k ∈ Finset.range (d + 1), soT links pick order j k * coeff e k := by
    intro j hj
    unfold soVec coeff
    rw [getD_range_map, if_pos hj]
  have hT00 : soT links pick order 0 0 = (1:ℤ) := by
    unfold soT
    rw [if_pos rfl]
  have hTi0 : ∀ i : ℕ, soT links pick order (i + 1) 0 = 0 := by
    intro i
    unfold soT
    rw [if_neg (show ¬ (i + 1 = 0) from by omega)]
    rw [if_neg (show ¬ (i + 1 = 0 ∧ (0:ℕ) ∈ vertsOf links) from
      fun hc => by omega)]
    rw [if_neg (show ¬ ((0:ℕ) ∈ vertsOf links
      ∧ (i + 1) ∈ (soState links pick order).2 0) from fun hc => h0 hc.1)]
  show coeff (soVec d links pick order e) 0
      + ∑ i ∈ Finset.range d, coeff (soVec d links pick order e) (i + 1) * w i
    = aeval d e (soPhi d links pick order w)
  rw [hcoeff 0 (by omega)]
  have hrest : ∑ i ∈ Finset.range d,
        coeff (soVec d links pick order e) (i + 1) * w i
      = ∑ k ∈ Finset.range (d + 1), ∑ i ∈ Finset.range d,
          soT links pick order (i + 1) k * coeff e k * w i := by
    rw [← Finset.sum_comm]
    refine Finset.sum_congr rfl fun i hi => ?_
    rw [hcoeff (i + 1) (by have := Finset.mem_range.mp hi; omega),
      Finset.sum_mul]
  rw [hrest, ← Finset.sum_add_distrib]
  have hfact : ∀ k ∈ Finset.range (d + 1),
      soT links pick order 0 k * coeff e k
        + ∑ i ∈ Finset.range d, soT links pick order (i + 1) k * coeff e k * w i
      = coeff e k * (soT links pick order 0 k
        + ∑ i ∈ Finset.range d, soT links pick order (i + 1) k * w i) := by
    intro k _
    rw [mul_add, Finset.mul_sum]
    congr 1
    · ring
    · exact Finset.sum_congr rfl fun i _ => by ring
  rw [Finset.sum_congr rfl hfact, Finset.sum_range_succ']
  have hzero : coeff e 0 * (soT links pick order 0 0
      + ∑ i ∈ Finset.range d, soT links pick order (i + 1) 0 * w i)
      = coeff e 0 := by
    rw [hT00]
    have : ∑ i ∈ Finset.range d, soT links pick order (i + 1) 0 * w i = 0 := by
      refine Finset.sum_eq_zero fun i _ => ?_
      rw [hTi0 i, zero_mul]
    rw [this, add_zero, mul_one]
  rw [hzero]
  show (∑ k ∈ Finset.range d,
      coeff e (k + 1) * soPhi d links pick order w k) + coeff e 0
    = coeff e 0 + ∑ k ∈ Finset.range d,
        coeff e (k + 1) * soPhi d links pick order w k
  exact add_comm _ _

end GenFn

namespace GenFn

lemma cpl_take : ∀ (l1 l2 : List ℕ),
    l1.take (commonPrefLen l1 l2) = l2.take (commonPrefLen l1 l2) := by
  intro l1
  induction l1 with
  | nil => intro l2; cases l2 <;> rfl
  | cons a t1 ih =>
      intro l2
      cases l2 with
      | nil => rfl
      | cons b t2 =>
          by_cases hab : a = b
          · subst hab
            have hc : commonPrefLen (a :: t1) (a :: t2)
                = commonPrefLen t1 t2 + 1 := by
              simp [commonPrefLen]
              omega
            rw [hc, List.take_succ_cons, List.take_succ_cons, ih t2]
          · have hc : commonPrefLen (a :: t1) (b :: t2) = 0 := by
              simp [commonPrefLen, hab]
            rw [hc]
            rfl

lemma cpl_ne : ∀ (l1 l2 : List ℕ) {a b : ℕ},
    l1[commonPrefLen l1 l2]? = some a → l2[commonPrefLen l1 l2]? = some b
    → a ≠ b := by
  intro l1
  induction l1 with
  | nil =>
      intro l2 a b h1 _
      cases l2 <;> simp at h1
  | cons a1 t1 ih =>
      intro l2 a b h1 h2
      cases l2 with
      | nil =>
          simp [commonPrefLen] at h2
      | cons b1 t2 =>
          by_cases hab : a1 = b1
          · subst hab
            have hc : commonPrefLen (a1 :: t1) (a1 :: t2)
                = commonPrefLen t1 t2 + 1 := by
              simp [commonPrefLen]
              omega
            rw [hc, List.getElem?_cons_succ] at h1 h2
            exact ih t2 h1 h2
          · have hc : commonPrefLen (a1 :: t1) (b1 :: t2) = 0 := by
              simp [commonPrefLen, hab]
            rw [hc, List.getElem?_cons_zero] at h1 h2
            have ha := Option.some.inj h1
            have hb := Option.some.inj h2
            intro hEq
            exact hab (by rw [ha, hb, hEq])

/-- A member of the `ell`-th suffix of a duplicate-free list whose own
path is a prefix of that list sits at position `≥ ell`; in particular the
list's entry at `ell` is the path's entry at `ell`. -/
lemma drop_mem_len {l pu t : List ℕ} {u ell : ℕ}
    (hnd : l.Nodup) (hl : l = pu ++ t) (hlast : pu.getLast? = some u)
    (hu : u ∈ l.drop ell) : ell < pu.length ∧ l[ell]? = pu[ell]? := by
  have hup : u ∈ pu := List.mem_of_getLast?_eq_some hlast
  have hlen : ell < pu.length := by
    by_contra hle
    push_neg at hle
    have h1 : pu = l.take pu.length := by
      rw [hl, List.take_left]
    have h2 : u ∈ l.take pu.length := h1 ▸ hup
    have h3 : u ∈ l.take ell := by
      have h4 : l.take pu.length = (l.take ell).take pu.length := by
        rw [List.take_take, Nat.min_eq_left hle]
      rw [h4] at h2
      exact List.mem_of_mem_take h2
    have hsplit := List.take_append_drop ell l
    have hnd2 : (l.take ell ++ l.drop ell).Nodup := by
      rw [hsplit]; exact hnd
    exact (List.nodup_append.mp hnd2).2.2 h3 hu
  refine ⟨hlen, ?_⟩
  rw [hl, List.getElem?_append_left hlen]

/-- The suffixes after the common prefix of two tree paths are disjoint. -/
lemma suff_disjoint {l1 l2 : List ℕ} {P : ℕ → List ℕ}
    (hnd1 : l1.Nodup) (hnd2 : l2.Nodup)
    (hp1 : ∀ u ∈ l1, (P u).getLast? = some u ∧ ∃ t, l1 = P u ++ t)
    (hp2 : ∀ u ∈ l2, (P u).getLast? = some u ∧ ∃ t, l2 = P u ++ t) :
    ∀ u, u ∈ l1.drop (commonPrefLen l1 l2)
      → u ∈ l2.drop (commonPrefLen l1 l2) → False := by
  intro u hu1 hu2
  have hm1 : u ∈ l1 := List.mem_of_mem_drop hu1
  have hm2 : u ∈ l2 := List.mem_of_mem_drop hu2
  obtain ⟨hlast1, t1, ht1⟩ := hp1 u hm1
  obtain ⟨hlast2, t2, ht2⟩ := hp2 u hm2
  obtain ⟨hlen1, hget1⟩ := drop_mem_len hnd1 ht1 hlast1 hu1
  obtain ⟨hlen2, hget2⟩ := drop_mem_len hnd2 ht2 hlast2 hu2
  have hsome : (P u)[commonPrefLen l1 l2]?
      = some ((P u).get ⟨commonPrefLen l1 l2, hlen1⟩) := by
    rw [List.getElem?_eq_getElem hlen1]
    rfl
  exact cpl_ne l1 l2 (by rw [hget1, hsome]) (by rw [hget2, hsome]) rfl

end GenFn

namespace GenFn

lemma pathSum_append (l1 l2 : List ℕ) (w : ℕ → ℤ) :
    pathSum (l1 ++ l2) w = pathSum l1 w + pathSum l2 w := by
  unfold pathSum
  rw [List.map_append, List.sum_append]

/-- Summing over the two path suffixes beyond the common prefix is the
difference of the full path sums. -/
lemma pathSum_drop_cancel (ln lx : List ℕ) (w : ℕ → ℤ) :
    pathSum (lx.drop (commonPrefLen ln lx)) w
        - pathSum (ln.drop (commonPrefLen ln lx)) w
      = pathSum lx w - pathSum ln w := by
  have hx := List.take_append_drop (commonPrefLen ln lx) lx
  have hn := List.take_append_drop (commonPrefLen ln lx) ln
  have hsx : pathSum lx w
      = pathSum (lx.take (commonPrefLen ln lx)) w
        + pathSum (lx.drop (commonPrefLen ln lx)) w := by
    rw [← pathSum_append, hx]
  have hsn : pathSum ln w
      = pathSum (ln.take (commonPrefLen ln lx)) w
        + pathSum (ln.drop (commonPrefLen ln lx)) w := by
    rw [← pathSum_append, hn]
  rw [hsx, hsn, cpl_take ln lx]
  ring

/-- Value of an extra inequality: its constant plus the difference of the
point's sums along the two suffixes. -/
lemma extra_aeval (d : ℕ) (pot : ℕ → ℤ) (path : ℕ → List ℕ)
    (links : List ((ℕ × ℕ) × ℤ)) (n x : ℕ) (w : ℕ → ℤ)
    (hDisj : ∀ u, u ∈ (path n).drop (commonPrefLen (path n) (path x))
      → u ∈ (path x).drop (commonPrefLen (path n) (path x)) → False)
    (hNN : ((path n).drop (commonPrefLen (path n) (path x))).Nodup)
    (hNV : ((path x).drop (commonPrefLen (path n) (path x))).Nodup)
    (hBN : ∀ u ∈ (path n).drop (commonPrefLen (path n) (path x)),
      1 ≤ u ∧ u ≤ d)
    (hBV : ∀ u ∈ (path x).drop (commonPrefLen (path n) (path x)),
      1 ≤ u ∧ u ≤ d) :
    aeval d (extraVec d pot path links n x) w
      = (pot n + cval links n x - pot x)
        + pathSum ((path x).drop (commonPrefLen (path n) (path x))) w
        - pathSum ((path n).drop (commonPrefLen (path n) (path x))) w := by
  set ell := commonPrefLen (path n) (path x) with hell
  set suffN := (path n).drop ell with hsn
  set suffV := (path x).drop ell with hsv
  have hcoeff : ∀ j, j < d + 1 → coeff (extraVec d pot path links n x) j
      = (if j = 0 then pot n + cval links n x - pot x
        else if j ∈ suffN then -1 else if j ∈ suffV then 1 else 0) := by
    intro j hj
    unfold extraVec coeff
    rw [getD_range_map, if_pos hj]
  show coeff (extraVec d pot path links n x) 0
      + ∑ i ∈ Finset.range d,
          coeff (extraVec d pot path links n x) (i + 1) * w i = _
  rw [hcoeff 0 (by omega), if_pos rfl]
  have hterm : ∀ i ∈ Finset.range d,
      coeff (extraVec d pot path links n x) (i + 1) * w i
        = (if (i + 1) ∈ suffV then w i else 0)
          - (if (i + 1) ∈ suffN then w i else 0) := by
    intro i hi
    have hid : i < d := Finset.mem_range.mp hi
    rw [hcoeff (i + 1) (by omega),
      if_neg (show ¬ (i + 1 = 0) from by omega)]
    by_cases hn1 : (i + 1) ∈ suffN
    · have hv1 : (i + 1) ∉ suffV := fun hc => hDisj (i + 1) hn1 hc
      rw [if_pos hn1, if_neg hv1, if_pos hn1]
      ring
    · rw [if_neg hn1, if_neg hn1]
      by_cases hv1 : (i + 1) ∈ suffV
      · rw [if_pos hv1, if_pos hv1]
        ring
      · rw [if_neg hv1, if_neg hv1]
        ring
  rw [Finset.sum_congr rfl hterm, Finset.sum_sub_distrib]
  have hsum : ∀ (S : List ℕ), S.Nodup → (∀ u ∈ S, 1 ≤ u ∧ u ≤ d) →
      ∑ i ∈ Finset.range d, (if (i + 1) ∈ S then w i else 0)
        = pathSum S w := by
    intro S hS hb
    rw [← Finset.sum_filter]
    have h1 := sum_filter_list d S hb hS (fun u => w (u - 1))
    unfold pathSum
    rw [← h1]
    exact Finset.sum_congr rfl fun u _ => by rw [Nat.add_sub_cancel]
  rw [hsum suffV hNV hBV, hsum suffN hNN hBN]
  ring

end GenFn

namespace GenFn

lemma chain_edge_mem (d : ℕ) (ineqs : List (List ℤ)) {e : List ℤ}
    (he : e ∈ ineqs) (hsh : isChainShape d e) :
    (theMone d e, theOne d e) ∈ linkKeys (classify d ineqs).2 := by
  unfold linkKeys
  rw [List.mem_dedup]
  refine List.mem_map.mpr ⟨((theMone d e, theOne d e), coeff e 0), ?_, rfl⟩
  rw [classify_snd]
  exact List.mem_map.mpr ⟨e, List.mem_filter.mpr ⟨he, by simpa using hsh⟩, rfl⟩

/-- With pairwise-distinct chain edges, the dictionary value of a chain
inequality's edge is that inequality's constant. -/
lemma cval_of_chain (d : ℕ) (ineqs : List (List ℤ))
    (hDist : ((classify d ineqs).2.map (fun p => p.1)).Nodup)
    {e : List ℤ} (he : e ∈ ineqs) (hsh : isChainShape d e) :
    cval (classify d ineqs).2 (theMone d e) (theOne d e) = coeff e 0 := by
  have hmem : ((theMone d e, theOne d e), coeff e 0)
      ∈ (classify d ineqs).2 := by
    rw [classify_snd]
    exact List.mem_map.mpr ⟨e, List.mem_filter.mpr ⟨he, by simpa using hsh⟩, rfl⟩
  have hkey := chain_edge_mem d ineqs he hsh
  obtain ⟨c, hc⟩ := edge_linkVal hkey
  have hcm := linkVal_some_mem hc
  have heqp := List.inj_on_of_nodup_map hDist hcm hmem rfl
  have hc2 : c = coeff e 0 := congrArg Prod.snd heqp
  unfold cval
  rw [hc]
  exact hc2

lemma chain_val (d : ℕ) {e : List ℤ} (hsh : isChainShape d e) (v : ℕ → ℤ) :
    aeval d e v
      = coeff e 0 + v (theOne d e - 1) - v (theMone d e - 1) := by
  rw [chain_aeval hsh v]
  unfold theOne theMone
  rw [Nat.add_sub_cancel, Nat.add_sub_cancel]

end GenFn

namespace GenFn

/-- Round-trip of `SplitOffSimpleInequalities`: with a valid topological
order and minimising predecessor choice, and pairwise-distinct chain-edge
patterns, substituting the rules into the generating function of the
transformed system and multiplying by the factor reproduces the
generating function of the original inequality system. -/
lemma so_roundtrip (d : ℕ) (ineqs : List (List ℤ))
    (pick : ℕ → Option ℕ) (order : List ℕ)
    (hnd : order.Nodup)
    (hTopo : ∀ k ∈ linkKeys (classify d ineqs).2,
      k.1 ∈ order ∧ k.2 ∈ order ∧ order.indexOf k.1 < order.indexOf k.2)
    (hPickOK : ∀ x ∈ order, (match pick x with
      | none => inNbrs (classify d ineqs).2 x = []
      | some n => n ∈ inNbrs (classify d ineqs).2 x
          ∧ (soState (classify d ineqs).2 pick order).1 x
            = (soState (classify d ineqs).2 pick order).1 n
              + cval (classify d ineqs).2 n x))
    (hDist : ((classify d ineqs).2.map (fun p => p.1)).Nodup)
    (v : ℕ → ℤ) :
    gfCoeff d ineqs [] v
      = pushF d (soPhi d (classify d ineqs).2 pick order)
          (soPsi d (classify d ineqs).2 pick order)
          (gfCoeff d (soIneqs d ineqs pick order) []) v := by
  have hPickNone : ∀ x ∈ order, pick x = none
      → inNbrs (classify d ineqs).2 x = [] := by
    intro x hx h
    have h2 := hPickOK x hx
    rw [h] at h2
    exact h2
  have hPickMem : ∀ x ∈ order, ∀ n, pick x = some n
      → n ∈ inNbrs (classify d ineqs).2 x := by
    intro x hx n h
    have h2 := hPickOK x hx
    rw [h] at h2
    exact h2.1
  have hPickMin : ∀ x ∈ order, ∀ n, pick x = some n
      → (soState (classify d ineqs).2 pick order).1 x
        = (soState (classify d ineqs).2 pick order).1 n
          + cval (classify d ineqs).2 n x := by
    intro x hx n h
    have h2 := hPickOK x hx
    rw [h] at h2
    exact h2.2
  have hVB : ∀ x ∈ vertsOf (classify d ineqs).2, 1 ≤ x ∧ x ≤ d :=
    fun x hx => verts_bound d ineqs hx
  have hVB1 : ∀ x ∈ vertsOf (classify d ineqs).2, 1 ≤ x :=
    fun x hx => (hVB x hx).1
  have h0 : (0:ℕ) ∉ vertsOf (classify d ineqs).2 := by
    intro hc
    have := (hVB 0 hc).1
    omega
  have hCval : ∀ k ∈ linkKeys (classify d ineqs).2,
      cval (classify d ineqs).2 k.1 k.2 ≤ 0 := by
    intro k hk
    exact cval_nonpos d ineqs (show (k.1, k.2) ∈ _ from by rwa [Prod.mk.eta])
  have hpotneg := pot_nonpos (classify d ineqs).2 pick order hnd hTopo hCval
  have hps := path_spec (classify d ineqs).2 pick order hnd hTopo hPickMem
  have hvert : ∀ x ∈ vertsOf (classify d ineqs).2,
      x ∈ order
      ∧ x ∈ (soState (classify d ineqs).2 pick order).2 x
      ∧ ((soState (classify d ineqs).2 pick order).2 x).Nodup
      ∧ (∀ u ∈ (soState (classify d ineqs).2 pick order).2 x,
          1 ≤ u ∧ u ≤ d)
      ∧ (∀ u ∈ (soState (classify d ineqs).2 pick order).2 x,
          ((soState (classify d ineqs).2 pick order).2 u).getLast? = some u
          ∧ ∃ t, (soState (classify d ineqs).2 pick order).2 x
              = (soState (classify d ineqs).2 pick order).2 u ++ t) := by
    intro x hx
    have hxo : x ∈ order := verts_mem_order hTopo hx
    obtain ⟨hlast, hnodup, hmem⟩ := hps x hxo
    have hself : x ∈ (soState (classify d ineqs).2 pick order).2 x :=
      List.mem_of_getLast?_eq_some hlast
    refine ⟨hxo, hself, hnodup, ?_, ?_⟩
    · intro u hu
      rcases (hmem u hu).2.2.1 with rfl | huv
      · exact hVB u hx
      · exact hVB u huv
    · intro u hu
      obtain ⟨hu1, -, -, t, ht⟩ := hmem u hu
      exact ⟨(hps u hu1).1, t, ht⟩
  have heq : eqOnD d
      (soPhi d (classify d ineqs).2 pick order
        (soPsi d (classify d ineqs).2 pick order v)) v := by
    intro i hi
    by_cases hv : (i + 1) ∈ vertsOf (classify d ineqs).2
    · obtain ⟨hxo, hself, hnodup, hB, -⟩ := hvert (i + 1) hv
      have h1 := soPhi_vert d (classify d ineqs).2 pick order
        (soPsi d (classify d ineqs).2 pick order v)
        (show 1 ≤ i + 1 from by omega) hv hself hnodup hB
      rw [show i + 1 - 1 = i from rfl] at h1
      rw [h1, psi_pathSum d (classify d ineqs).2 pick order hnd hTopo
        hPickMem hVB1 v (i + 1) hxo hv]
      rw [show i + 1 - 1 = i from rfl]
      ring
    · rw [soPhi_free d (classify d ineqs).2 pick order _ hv
        (Finset.mem_range.mp hi)]
      exact soPsi_notvert d (classify d ineqs).2 pick order v hv
  unfold pushF
  rw [if_pos heq]
  have hF1 : ∀ i, (i + 1) ∉ vertsOf (classify d ineqs).2 →
      soPsi d (classify d ineqs).2 pick order v i = v i :=
    fun i hi => soPsi_notvert d (classify d ineqs).2 pick order v hi
  have hF2 : ∀ x ∈ vertsOf (classify d ineqs).2,
      v (x - 1) = -((soState (classify d ineqs).2 pick order).1 x)
        + pathSum ((soState (classify d ineqs).2 pick order).2 x)
            (soPsi d (classify d ineqs).2 pick order v) := by
    intro x hx
    obtain ⟨hxo, hself, hnodup, hB, -⟩ := hvert x hx
    have hx1 := (hVB x hx).1
    have hxd := (hVB x hx).2
    have h1 := soPhi_vert d (classify d ineqs).2 pick order
      (soPsi d (classify d ineqs).2 pick order v) hx1 hx hself hnodup hB
    have h2 := heq (x - 1) (Finset.mem_range.mpr (by omega))
    rw [← h2, h1]
  have hF3 : ∀ x n, x ∈ order → x ∈ vertsOf (classify d ineqs).2 →
      pick x = some n →
      soPsi d (classify d ineqs).2 pick order v (x - 1)
        = cval (classify d ineqs).2 n x + v (x - 1) - v (n - 1) := by
    intro x n hxo hx hpick
    have hx1 := (hVB x hx).1
    rw [soPsi_vert_some d (classify d ineqs).2 pick order v hx1 hx hpick,
      hPickMin x hxo n hpick]
    ring
  have hF4 : ∀ x, x ∈ order → x ∈ vertsOf (classify d ineqs).2 →
      pick x = none →
      soPsi d (classify d ineqs).2 pick order v (x - 1) = v (x - 1) := by
    intro x hxo hx hpick
    have hx1 := (hVB x hx).1
    rw [soPsi_vert_none d (classify d ineqs).2 pick order v hx1 hx hpick,
      pot_of_no_nbrs (classify d ineqs).2 pick order hnd hTopo hxo
        (hPickNone x hxo hpick)]
    ring
  have hF5 : ∀ n x, (n, x) ∈ linkKeys (classify d ineqs).2 →
      aeval d (extraVec d (soState (classify d ineqs).2 pick order).1
          (soState (classify d ineqs).2 pick order).2
          (classify d ineqs).2 n x)
          (soPsi d (classify d ineqs).2 pick order v)
        = cval (classify d ineqs).2 n x + v (x - 1) - v (n - 1) := by
    intro n x hk
    have hxv := (edge_mem_verts hk).2
    have hnv := (edge_mem_verts hk).1
    obtain ⟨hxo, hxself, hxnodup, hxB, hxpref⟩ := hvert x hxv
    obtain ⟨hno, hnself, hnnodup, hnB, hnpref⟩ := hvert n hnv
    have hDisj := suff_disjoint hnnodup hxnodup hnpref hxpref
    have hNN : (((soState (classify d ineqs).2 pick order).2 n).drop
        (commonPrefLen ((soState (classify d ineqs).2 pick order).2 n)
          ((soState (classify d ineqs).2 pick order).2 x))).Nodup :=
      List.Nodup.sublist (List.drop_sublist _ _) hnnodup
    have hNV : (((soState (classify d ineqs).2 pick order).2 x).drop
        (commonPrefLen ((soState (classify d ineqs).2 pick order).2 n)
          ((soState (classify d ineqs).2 pick order).2 x))).Nodup :=
      List.Nodup.sublist (List.drop_sublist _ _) hxnodup
    have hBN : ∀ u ∈ ((soState (classify d ineqs).2 pick order).2 n).drop
        (commonPrefLen ((soState (classify d ineqs).2 pick order).2 n)
          ((soState (classify d ineqs).2 pick order).2 x)),
        1 ≤ u ∧ u ≤ d :=
      fun u hu => hnB u (List.mem_of_mem_drop hu)
    have hBV : ∀ u ∈ ((soState (classify d ineqs).2 pick order).2 x).drop
        (commonPrefLen ((soState (classify d ineqs).2 pick order).2 n)
          ((soState (classify d ineqs).2 pick order).2 x)),
        1 ≤ u ∧ u ≤ d :=
      fun u hu => hxB u (List.mem_of_mem_drop hu)
    rw [extra_aeval d (soState (classify d ineqs).2 pick order).1
      (soState (classify d ineqs).2 pick order).2
      (classify d ineqs).2 n x
      (soPsi d (classify d ineqs).2 pick order v) hDisj hNN hNV hBN hBV]
    rw [add_sub_assoc, pathSum_drop_cancel]
    have hX : pathSum ((soState (classify d ineqs).2 pick order).2 x)
        (soPsi d (classify d ineqs).2 pick order v)
        = v (x - 1) + (soState (classify d ineqs).2 pick order).1 x := by
      have := hF2 x hxv
      omega
    have hN : pathSum ((soState (classify d ineqs).2 pick order).2 n)
        (soPsi d (classify d ineqs).2 pick order v)
        = v (n - 1) + (soState (classify d ineqs).2 pick order).1 n := by
      have := hF2 n hnv
      omega
    rw [hX, hN]
    ring
  have hF6 : ∀ e : List ℤ,
      aeval d (soVec d (classify d ineqs).2 pick order e)
        (soPsi d (classify d ineqs).2 pick order v) = aeval d e v := by
    intro e
    rw [soVec_aeval d (classify d ineqs).2 pick order h0 e
      (soPsi d (classify d ineqs).2 pick order v)]
    exact aeval_eqOnD d e heq
  unfold gfCoeff
  refine if_congr ?_ rfl rfl
  constructor
  · rintro ⟨hokv, hsat, -⟩
    refine ⟨?_, ?_, fun e he => absurd he (List.not_mem_nil e)⟩
    · intro i hi
      by_cases hv : (i + 1) ∈ vertsOf (classify d ineqs).2
      · have hxo := verts_mem_order hTopo hv
        cases hpick : pick (i + 1) with
        | none =>
            have h := hF4 (i + 1) hxo hv hpick
            rw [show i + 1 - 1 = i from rfl] at h
            rw [h]
            exact hokv i hi
        | some n =>
            have hnn := hPickMem (i + 1) hxo n hpick
            have hedge := inNbrs_edge hnn
            have h := hF3 (i + 1) n hxo hv hpick
            rw [show i + 1 - 1 = i from rfl] at h
            rw [h]
            obtain ⟨e, hei, hsh, hm1, hm2, hcv⟩ := link_source d ineqs hedge
            have hav := chain_val d hsh v
            rw [hm1, hm2, hcv] at hav
            rw [show i + 1 - 1 = i from rfl] at hav
            rw [← hav]
            exact hsat e hei
      · rw [hF1 i hv]
        exact hokv i hi
    · intro e' he'
      unfold soIneqs at he'
      rcases List.mem_append.mp he' with hkept | hextra
      · obtain ⟨e, hef, rfl⟩ := List.mem_map.mp hkept
        rw [hF6 e]
        refine hsat e ?_
        rw [classify_fst] at hef
        exact List.mem_of_mem_filter hef
      · unfold extrasList at hextra
        obtain ⟨x, hxord, hmem2⟩ := List.mem_flatMap.mp hextra
        obtain ⟨n, hnf, rfl⟩ := List.mem_map.mp hmem2
        obtain ⟨hnin, hnpick⟩ := List.mem_filter.mp hnf
        have hedge := inNbrs_edge hnin
        rw [hF5 n x hedge]
        obtain ⟨e, hei, hsh, hm1, hm2, hcv⟩ := link_source d ineqs hedge
        have hav := chain_val d hsh v
        rw [hm1, hm2, hcv] at hav
        rw [← hav]
        exact hsat e hei
  · rintro ⟨hokw, hsatw, -⟩
    have hokv : okPoint d v := by
      intro i hi
      by_cases hv : (i + 1) ∈ vertsOf (classify d ineqs).2
      · have h2 := hF2 (i + 1) hv
        rw [show i + 1 - 1 = i from rfl] at h2
        rw [h2]
        have hpn := hpotneg (i + 1)
        have hpsum : 0 ≤ pathSum
            ((soState (classify d ineqs).2 pick order).2 (i + 1))
            (soPsi d (classify d ineqs).2 pick order v) := by
          unfold pathSum
          refine List.sum_nonneg ?_
          intro z hz
          obtain ⟨u, hu, rfl⟩ := List.mem_map.mp hz
          obtain ⟨-, -, -, hB, -⟩ := hvert (i + 1) hv
          have hub := hB u hu
          exact hokw (u - 1) (Finset.mem_range.mpr (by omega))
        omega
      · rw [← hF1 i hv]
        exact hokw i hi
    refine ⟨hokv, ?_, fun e he => absurd he (List.not_mem_nil e)⟩
    intro e he
    by_cases hall : allNonnegV d e
    · exact allNonneg_aeval hall hokv
    by_cases hsh : isChainShape d e
    · have hedge := chain_edge_mem d ineqs he hsh
      have hcv := cval_of_chain d ineqs hDist he hsh
      have hav := chain_val d hsh v
      have hxv := (edge_mem_verts hedge).2
      have hxo := verts_mem_order hTopo hxv
      by_cases hpick : pick (theOne d e) = some (theMone d e)
      · have h := hF3 (theOne d e) (theMone d e) hxo hxv hpick
        rw [hav, ← hcv, ← h]
        have hb := hVB (theOne d e) hxv
        exact hokw _ (Finset.mem_range.mpr (by omega))
      · have hnin := edge_inNbrs hedge
        have hmemE : extraVec d (soState (classify d ineqs).2 pick order).1
            (soState (classify d ineqs).2 pick order).2
            (classify d ineqs).2 (theMone d e) (theOne d e)
            ∈ soIneqs d ineqs pick order := by
          unfold soIneqs extrasList
          refine List.mem_append_right _ ?_
          refine List.mem_flatMap.mpr ⟨theOne d e, hxo, ?_⟩
          refine List.mem_map.mpr ⟨theMone d e, ?_, rfl⟩
          refine List.mem_filter.mpr ⟨hnin, ?_⟩
          simpa using hpick
        have hE := hsatw _ hmemE
        rw [hF5 (theMone d e) (theOne d e) hedge] at hE
        rw [hav, ← hcv]
        exact hE
    · have hef : e ∈ (classify d ineqs).1 := by
        rw [classify_fst]
        refine List.mem_filter.mpr ⟨he, ?_⟩
        simp [hall, hsh]
      have hmemK : soVec d (classify d ineqs).2 pick order e
          ∈ soIneqs d ineqs pick order := by
        unfold soIneqs
        exact List.mem_append_left _ (List.mem_map.mpr ⟨e, hef, rfl⟩)
      have hK := hsatw _ hmemK
      rw [hF6 e] at hK
      exact hK

end GenFn

namespace GenFn

/-- C2 (amended): round-trip of the three transform components.  For
`TransformMod`, substituting its rules into the generating function of the
transformed system and multiplying by its factor reproduces the generating
function of the pre-transform system *restricted to the prescribed residue
classes* (not the unrestricted one).  `EliminateByEquations` — for valid
reduced-equation data with an identity sub-matrix on the pivot columns —
and `SplitOffSimpleInequalities` — for a valid topological order with a
minimising predecessor choice, provided the chain inequalities carry
pairwise-distinct edge patterns — reproduce the generating functions of
their pre-transform systems exactly. -/
theorem C2_roundtrip
    (d1 : ℕ) (mod : ModConfig) (in1 eq1 : List (List ℤ))
    (hok : modOK d1 mod) (v1 : ℕ → ℤ)
    (d2 : ℕ) (TEZ : List (List ℤ)) (pivots : List ℕ)
    (in2 eq2 : List (List ℤ))
    (hLen : TEZ.length = pivots.length)
    (hPiv : ∀ p ∈ pivots, 1 ≤ p ∧ p ≤ d2)
    (hN : pivots.Nodup)
    (hId : ∀ k k', k < TEZ.length → k' < pivots.length →
      coeff (teRow TEZ k) (pivots.getD k' 0) = if k = k' then 1 else 0)
    (hSol : ∀ v : ℕ → ℤ, satEqs d2 eq2 v ↔ satEqs d2 TEZ v)
    (hZeroI : ∀ e ∈ in2, ∀ p ∈ pivots, coeff e p = 0)
    (hOrth : ∀ v : ℕ → ℤ,
      (∀ i ∈ Finset.range d2, (i + 1) ∉ pivots → 0 ≤ v i) →
      satIneqs d2 in2 v → satEqs d2 eq2 v → okPoint d2 v)
    (v2 : ℕ → ℤ)
    (d3 : ℕ) (in3 : List (List ℤ)) (pick : ℕ → Option ℕ) (order : List ℕ)
    (hnd : order.Nodup)
    (hTopo : ∀ k ∈ linkKeys (classify d3 in3).2,
      k.1 ∈ order ∧ k.2 ∈ order ∧ order.indexOf k.1 < order.indexOf k.2)
    (hPickOK : ∀ x ∈ order, (match pick x with
      | none => inNbrs (classify d3 in3).2 x = []
      | some n => n ∈ inNbrs (classify d3 in3).2 x
          ∧ (soState (classify d3 in3).2 pick order).1 x
            = (soState (classify d3 in3).2 pick order).1 n
              + cval (classify d3 in3).2 n x))
    (hDist : ((classify d3 in3).2.map (fun p => p.1)).Nodup)
    (v3 : ℕ → ℤ) :
    (gfCoeffMod d1 in1 eq1 mod v1
        = pushF d1 (tmPhi mod) (tmPsi mod)
            (gfCoeff d1 (in1.map (tmVec d1 mod))
              (eq1.map (tmVec d1 mod))) v1)
    ∧ (gfCoeff d2 in2 eq2 v2
        = pushF d2 (elimPhi d2 TEZ pivots) (elimPsi pivots)
            (omegaSeries d2 in2 (pivots.map (fun p => p - 1))) v2)
    ∧ (gfCoeff d3 in3 [] v3
        = pushF d3 (soPhi d3 (classify d3 in3).2 pick order)
            (soPsi d3 (classify d3 in3).2 pick order)
            (gfCoeff d3 (soIneqs d3 in3 pick order) []) v3) :=
  ⟨tm_roundtrip d1 mod in1 eq1 hok v1,
   elim_roundtrip d2 TEZ pivots in2 eq2 hLen hPiv hN hId hSol hZeroI hOrth v2,
   so_roundtrip d3 in3 pick order hnd hTopo hPickOK hDist v3⟩

/-- Witness for `C2_roundtrip` at concrete systems: a mod dictionary
`x0 ≡ 1 (mod 2)` on `x0 ≥ 0`, the reduced equation `x0 = 0`, and the
chain doctest system `{-x0 + x1 ≥ 0, 2 - x0 - x1 + x2 ≥ 0}`. -/
theorem C2_roundtrip_witness :
    (gfCoeffMod 1 [[0,1]] [] [(0,2,1)] (fun _ => 1)
        = pushF 1 (tmPhi [(0,2,1)]) (tmPsi [(0,2,1)])
            (gfCoeff 1 ([[0,1]].map (tmVec 1 [(0,2,1)]))
              (([] : List (List ℤ)).map (tmVec 1 [(0,2,1)]))) (fun _ => 1))
    ∧ (gfCoeff 1 [] [[0,1]] (fun _ => 0)
        = pushF 1 (elimPhi 1 [[0,1]] [1]) (elimPsi [1])
            (omegaSeries 1 [] ([1].map (fun p => p - 1))) (fun _ => 0))
    ∧ (gfCoeff 3 [[0,-1,1,0],[2,-1,-1,1]] [] (fun _ => 1)
        = pushF 3
            (soPhi 3 (classify 3 [[0,-1,1,0],[2,-1,-1,1]]).2
              (fun y => if y = 2 then some 1 else none) [1,2])
            (soPsi 3 (classify 3 [[0,-1,1,0],[2,-1,-1,1]]).2
              (fun y => if y = 2 then some 1 else none) [1,2])
            (gfCoeff 3 (soIneqs 3 [[0,-1,1,0],[2,-1,-1,1]]
              (fun y => if y = 2 then some 1 else none) [1,2]) [])
            (fun _ => 1)) :=
  C2_roundtrip 1 [(0,2,1)] [[0,1]] [] (by decide) (fun _ => 1)
    1 [[0,1]] [1] [] [[0,1]]
    (by decide)
    (by decide)
    (by decide)
    (by
      intro k k' hk hk'
      simp only [List.length_cons, List.length_nil] at hk hk'
      have hk0 : k = 0 := by omega
      have hk0' : k' = 0 := by omega
      subst hk0
      subst hk0'
      decide)
    (fun _ => Iff.rfl)
    (by
      intro e he
      exact absurd he (List.not_mem_nil e))
    (by
      intro v _ _ he i hi
      have h0 : i = 0 := by
        have := Finset.mem_range.mp hi
        omega
      subst h0
      have h1 := he [0,1] (by simp)
      have h2 : v 0 = 0 := by
        simpa [aeval, coeff, Finset.sum_range_one] using h1
      omega)
    (fun _ => 0)
    3 [[0,-1,1,0],[2,-1,-1,1]] (fun y => if y = 2 then some 1 else none)
    [1,2]
    (by decide)
    (by decide)
    (by
      intro x hx
      fin_cases hx
      · show inNbrs (classify 3 [[0,-1,1,0],[2,-1,-1,1]]).2 1 = []
        decide
      · show (1:ℕ) ∈ inNbrs (classify 3 [[0,-1,1,0],[2,-1,-1,1]]).2 2
          ∧ (soState (classify 3 [[0,-1,1,0],[2,-1,-1,1]]).2
              (fun y => if y = 2 then some 1 else none) [1,2]).1 2
            = (soState (classify 3 [[0,-1,1,0],[2,-1,-1,1]]).2
                (fun y => if y = 2 then some 1 else none) [1,2]).1 1
              + cval (classify 3 [[0,-1,1,0],[2,-1,-1,1]]).2 1 2
        decide)
    (by decide)
    (fun _ => 1)

/-- C2 counterexample to the claim as stated: substituting rules and
multiplying by the factor does **not** always reproduce the generating
function of the untransformed system.  For `TransformMod` with
`x0 ≡ 1 (mod 2)` on the valid system `{x0 ≥ 0}`, the reconstruction drops
the monomial `y^0` (the restriction to the residue class differs from the
full system).  For `SplitOffSimpleInequalities` on the valid system
`{-1 + x0 - x1 ≥ 0, x0 - x1 ≥ 0}`, whose two chain inequalities share the
edge pattern `(+1 at x0, -1 at x1)`, the dictionary keeps only the later
constant `0`, and the reconstruction wrongly contains `y^(0,0)`. -/
theorem C2_exact_roundtrip_fails :
    (gfCoeff 1 [[0,1]] [] (fun _ => 0)
      ≠ pushF 1 (tmPhi [(0,2,1)]) (tmPsi [(0,2,1)])
          (gfCoeff 1 ([[0,1]].map (tmVec 1 [(0,2,1)]))
            (([] : List (List ℤ)).map (tmVec 1 [(0,2,1)]))) (fun _ => 0))
    ∧ (gfCoeff 2 [[-1,1,-1],[0,1,-1]] [] (fun _ => 0)
      ≠ pushF 2
          (soPhi 2 (classify 2 [[-1,1,-1],[0,1,-1]]).2
            (fun x => if x = 1 then some 2 else none) [2,1])
          (soPsi 2 (classify 2 [[-1,1,-1],[0,1,-1]]).2
            (fun x => if x = 1 then some 2 else none) [2,1])
          (gfCoeff 2 (soIneqs 2 [[-1,1,-1],[0,1,-1]]
            (fun x => if x = 1 then some 2 else none) [2,1]) [])
          (fun _ => 0)) :=
  ⟨by decide, by decide⟩

end GenFn

namespace GenFn

/-- C6 (amended): `SplitOffSimpleInequalities` removes from the list an
inequality exactly when either all its entries (constant included) are
nonnegative, or it has the chain shape — exactly one `+1`, exactly one
`-1`, no other nonzero variable coefficient, **and nonpositive constant**;
only the chain-shape ones feed the graph transform, with the edge
`(position of -1, position of +1)` weighted by the constant.  Every other
inequality — including the lower-bound shape (single `+1`, negative
constant), which the claim asserts is graph-handled — is passed on, after
multiplication by the transform matrix `T` (not untouched). -/
theorem C6_classification (d : ℕ) (ineqs : List (List ℤ))
    (pick : ℕ → Option ℕ) (order : List ℕ) :
    (classify d ineqs).1
        = ineqs.filter (fun e => ¬ allNonnegV d e ∧ ¬ isChainShape d e)
    ∧ (classify d ineqs).2
        = (ineqs.filter (fun e => isChainShape d e)).map
            (fun e => ((theMone d e, theOne d e), coeff e 0))
    ∧ soIneqs d ineqs pick order
        = ((classify d ineqs).1).map
            (soVec d (classify d ineqs).2 pick order)
          ++ extrasList d (classify d ineqs).2 pick order :=
  ⟨classify_fst d ineqs, classify_snd d ineqs, rfl⟩

/-- C6 counterexample: the `+1`/`-1` inequality `5 + x0 - x1 ≥ 0` (chain
pattern, positive constant) is **not** removed, the lower-bound
inequality `-1 + x0 ≥ 0` is passed through rather than handled by the
chain graph (which stays empty), and the passed-through inequality
`2 - x0 - x1 + x2 ≥ 0` of the chain doctest is transformed to
`2 - 2*x0 - x1 + x2 ≥ 0`, not passed on untouched. -/
theorem C6_misclassified :
    ((classify 2 [[5,1,-1]]).1 = [[5,1,-1]]
      ∧ (classify 2 [[5,1,-1]]).2 = [])
    ∧ ((classify 2 [[-1,1,0]]).1 = [[-1,1,0]]
      ∧ (classify 2 [[-1,1,0]]).2 = [])
    ∧ (soIneqs 3 [[0,-1,1,0],[2,-1,-1,1]]
          (fun y => if y = 2 then some 1 else none) [1,2]
        = [[2,-2,-1,1]]
      ∧ [[(2:ℤ),-2,-1,1]] ≠ [[2,-1,-1,1]]) :=
  ⟨⟨by decide, by decide⟩, ⟨by decide, by decide⟩, ⟨by decide, by decide⟩⟩

end GenFn

namespace GenFn

/-- `EliminateByEquations` clears the equation list; only when the
equation matrix is zero (`if not E`) does it return early and keep it. -/
def elimEqsOut (eqs : List (List ℤ)) : List (List ℤ) :=
  if eqs.all (fun row => row.all (fun c => c == 0)) then eqs else []

/-- `SplitOffSimpleInequalities` passes the equation list through. -/
def soEqsOut (eqs : List (List ℤ)) : List (List ℤ) := eqs

/-- The modulus substitution scales the variable columns, so a zero
coefficient stays zero. -/
lemma tmVec_zero_col (d : ℕ) (mod : ModConfig) (e : List ℤ) (j : ℕ)
    (hz : coeff e (j + 1) = 0) : coeff (tmVec d mod e) (j + 1) = 0 := by
  show (tmVec d mod e).getD (j + 1) 0 = 0
  unfold tmVec
  rw [getD_range_map]
  by_cases h : j + 1 < d + 1
  · rw [if_pos h, if_neg (show ¬ (j + 1 = 0) from by omega)]
    rw [hz, zero_mul]
  · rw [if_neg h]

/-- A coordinate on which every inequality vanishes is not a vertex of
the chain graph. -/
lemma zero_col_not_vert (d : ℕ) (ineqs : List (List ℤ)) {p : ℕ}
    (hZero : ∀ e ∈ ineqs, coeff e p = 0) :
    p ∉ vertsOf (classify d ineqs).2 := by
  intro hc
  unfold vertsOf at hc
  obtain ⟨k, hk, hpk⟩ := List.mem_flatMap.mp (List.mem_dedup.mp hc)
  obtain ⟨e, he, hsh, hm1, hm2, -⟩ := link_source d ineqs
    (show (k.1, k.2) ∈ _ from by rwa [Prod.mk.eta])
  have hz := hZero e he
  rcases List.mem_cons.mp hpk with rfl | hpk2
  · rw [← hm1] at hz
    unfold theMone at hz
    have hmem := fmin_mem_of_card_one hsh.2.1
    have hval : coeff e (fmin (monesSet d e) + 1) = -1 := by
      have := (Finset.mem_filter.mp hmem).2
      simpa using this
    rw [hval] at hz
    omega
  · have hp2 : p = k.2 := by simpa using hpk2
    subst hp2
    rw [← hm2] at hz
    unfold theOne at hz
    have hmem := fmin_mem_of_card_one hsh.1
    have hval : coeff e (fmin (onesSet d e) + 1) = 1 := by
      have := (Finset.mem_filter.mp hmem).2
      simpa using this
    rw [hval] at hz
    omega

/-- The split-off transform preserves vanishing of a column on which
every input inequality vanishes: such a column is not a chain-graph
vertex, hence on no path, so neither the matrix transform nor the extra
inequalities touch it. -/
lemma so_zero_col (d : ℕ) (ineqs : List (List ℤ))
    (pick : ℕ → Option ℕ) (order : List ℕ) (hnd : order.Nodup)
    (hTopo : ∀ k ∈ linkKeys (classify d ineqs).2,
      k.1 ∈ order ∧ k.2 ∈ order ∧ order.indexOf k.1 < order.indexOf k.2)
    (hPickMem : ∀ x ∈ order, ∀ n, pick x = some n
      → n ∈ inNbrs (classify d ineqs).2 x)
    {p : ℕ} (hp1 : 1 ≤ p)
    (hZero : ∀ e ∈ ineqs, coeff e p = 0) :
    ∀ e' ∈ soIneqs d ineqs pick order, coeff e' p = 0 := by
  have hpv := zero_col_not_vert d ineqs hZero
  have hps := path_spec (classify d ineqs).2 pick order hnd hTopo hPickMem
  have hpnotpath : ∀ x ∈ vertsOf (classify d ineqs).2,
      p ∉ (soState (classify d ineqs).2 pick order).2 x := by
    intro x hx hc
    have hxo := verts_mem_order hTopo hx
    have hmem := (hps x hxo).2.2 p hc
    rcases hmem.2.2.1 with rfl | hpv2
    · exact hpv hx
    · exact hpv hpv2
  intro e' he'
  unfold soIneqs at he'
  rcases List.mem_append.mp he' with hkept | hextra
  · obtain ⟨e, hef, rfl⟩ := List.mem_map.mp hkept
    have heI : e ∈ ineqs := by
      rw [classify_fst] at hef
      exact List.mem_of_mem_filter hef
    show (soVec d (classify d ineqs).2 pick order e).getD p 0 = 0
    unfold soVec
    rw [getD_range_map]
    by_cases hpd : p < d + 1
    · rw [if_pos hpd]
      refine Finset.sum_eq_zero fun k _ => ?_
      by_cases hkp : p = k
      · subst hkp
        rw [hZero e heI, mul_zero]
      · have hT : soT (classify d ineqs).2 pick order p k = 0 := by
          unfold soT
          rw [if_neg hkp]
          rw [if_neg (show ¬ (p = 0
            ∧ k ∈ vertsOf (classify d ineqs).2) from fun hc => by omega)]
          rw [if_neg (show ¬ (k ∈ vertsOf (classify d ineqs).2
            ∧ p ∈ (soState (classify d ineqs).2 pick order).2 k) from
            fun hc => hpnotpath k hc.1 hc.2)]
        rw [hT, zero_mul]
    · rw [if_neg hpd]
  · unfold extrasList at hextra
    obtain ⟨x, hxord, hmem2⟩ := List.mem_flatMap.mp hextra
    obtain ⟨n, hnf, rfl⟩ := List.mem_map.mp hmem2
    obtain ⟨hnin, -⟩ := List.mem_filter.mp hnf
    have hedge := inNbrs_edge hnin
    have hxv := (edge_mem_verts hedge).2
    have hnv := (edge_mem_verts hedge).1
    show (extraVec d (soState (classify d ineqs).2 pick order).1
        (soState (classify d ineqs).2 pick order).2
        (classify d ineqs).2 n x).getD p 0 = 0
    unfold extraVec
    rw [getD_range_map]
    by_cases hpd : p < d + 1
    · rw [if_pos hpd]
      rw [if_neg (show ¬ (p = 0) from by omega)]
      rw [if_neg (show ¬ p ∈ ((soState (classify d ineqs).2 pick order).2
          n).drop (commonPrefLen
            ((soState (classify d ineqs).2 pick order).2 n)
            ((soState (classify d ineqs).2 pick order).2 x)) from
        fun hc => hpnotpath n hnv (List.mem_of_mem_drop hc))]
      rw [if_neg (show ¬ p ∈ ((soState (classify d ineqs).2 pick order).2
          x).drop (commonPrefLen
            ((soState (classify d ineqs).2 pick order).2 n)
            ((soState (classify d ineqs).2 pick order).2 x)) from
        fun hc => hpnotpath x hxv (List.mem_of_mem_drop hc))]
    · rw [if_neg hpd]

end GenFn

namespace GenFn

/-- C7: the internal consistency assertions hold.  If every inequality
of the system vanishes on a skip column (the guarantee provided by the
H-representation for the pivot columns of the equations), this vanishing
survives the modulus substitution and the split-off transform, so every
inequality reaching the Omega engine has coefficient zero at every skip
index; and the equation list after `EliminateByEquations` followed by
`SplitOffSimpleInequalities` is empty whenever every equation has a
nonzero entry. -/
theorem C7_assertions_hold
    (dm : ℕ) (mod : ModConfig) (em : List ℤ) (jm : ℕ)
    (hzm : coeff em (jm + 1) = 0)
    (d : ℕ) (ineqs : List (List ℤ)) (pick : ℕ → Option ℕ) (order : List ℕ)
    (hnd : order.Nodup)
    (hTopo : ∀ k ∈ linkKeys (classify d ineqs).2,
      k.1 ∈ order ∧ k.2 ∈ order ∧ order.indexOf k.1 < order.indexOf k.2)
    (hPickOK : ∀ x ∈ order, (match pick x with
      | none => inNbrs (classify d ineqs).2 x = []
      | some n => n ∈ inNbrs (classify d ineqs).2 x
          ∧ (soState (classify d ineqs).2 pick order).1 x
            = (soState (classify d ineqs).2 pick order).1 n
              + cval (classify d ineqs).2 n x))
    (p : ℕ) (hp1 : 1 ≤ p)
    (hZero : ∀ e ∈ ineqs, coeff e p = 0)
    (eqs : List (List ℤ)) (hne : ∀ e ∈ eqs, ∃ c ∈ e, c ≠ 0) :
    coeff (tmVec dm mod em) (jm + 1) = 0
    ∧ (∀ e' ∈ soIneqs d ineqs pick order, coeff e' p = 0)
    ∧ soEqsOut (elimEqsOut eqs) = [] := by
  have hPickMem : ∀ x ∈ order, ∀ n, pick x = some n
      → n ∈ inNbrs (classify d ineqs).2 x := by
    intro x hx n h
    have h2 := hPickOK x hx
    rw [h] at h2
    exact h2.1
  refine ⟨tmVec_zero_col dm mod em jm hzm,
    so_zero_col d ineqs pick order hnd hTopo hPickMem hp1 hZero, ?_⟩
  unfold soEqsOut elimEqsOut
  cases heqs : eqs with
  | nil => rw [if_pos (by simp)]
  | cons e0 rest =>
      rw [if_neg ?_]
      obtain ⟨c, hc, hcne⟩ := hne e0 (heqs ▸ List.mem_cons_self e0 rest)
      intro hall
      rw [List.all_eq_true] at hall
      have h1 := hall e0 (List.mem_cons_self e0 rest)
      rw [List.all_eq_true] at h1
      have h2 := h1 c hc
      rw [beq_iff_eq] at h2
      exact hcne h2

/-- Witness for `C7_assertions_hold`: the modulus substitution
`x0 ≡ 1 (mod 2)` on `(1, 0, 2)`, the chain system `{-x0 + x1 ≥ 0}` in
four variables (in which every inequality vanishes on column `3`), and
the equation `x0 = 0`. -/
theorem C7_assertions_hold_witness :
    coeff (tmVec 2 [(0,2,1)] [1,0,2]) (0 + 1) = 0
    ∧ (∀ e' ∈ soIneqs 3 [[0,-1,1,0]]
        (fun y => if y = 2 then some 1 else none) [1,2], coeff e' 3 = 0)
    ∧ soEqsOut (elimEqsOut [[0,1]]) = [] :=
  C7_assertions_hold 2 [(0,2,1)] [1,0,2] 0 (by decide)
    3 [[0,-1,1,0]] (fun y => if y = 2 then some 1 else none) [1,2]
    (by decide)
    (by decide)
    (by
      intro x hx
      fin_cases hx
      · show inNbrs (classify 3 [[0,-1,1,0]]).2 1 = []
        decide
      · show (1:ℕ) ∈ inNbrs (classify 3 [[0,-1,1,0]]).2 2
          ∧ (soState (classify 3 [[0,-1,1,0]]).2
              (fun y => if y = 2 then some 1 else none) [1,2]).1 2
            = (soState (classify 3 [[0,-1,1,0]]).2
                (fun y => if y = 2 then some 1 else none) [1,2]).1 1
              + cval (classify 3 [[0,-1,1,0]]).2 1 2
        decide)
    3 (by decide)
    (by decide)
    [[0,1]]
    (by
      intro e he
      have he0 : e = [0,1] := by simpa using he
      subst he0
      exact ⟨1, by simp, by decide⟩)

end GenFn

namespace GenFn

lemma okPoint_three (v : ℕ → ℤ) :
    okPoint 3 v ↔ 0 ≤ v 0 ∧ 0 ≤ v 1 ∧ 0 ≤ v 2 := by
  unfold okPoint
  constructor
  · intro h
    exact ⟨h 0 (by decide), h 1 (by decide), h 2 (by decide)⟩
  · rintro ⟨h0, h1, h2⟩ i hi
    have := Finset.mem_range.mp hi
    interval_cases i <;> assumption

lemma aeval_three (e : List ℤ) (v : ℕ → ℤ) :
    aeval 3 e v
      = coeff e 0 + coeff e 1 * v 0 + coeff e 2 * v 1 + coeff e 3 * v 2 := by
  unfold aeval
  rw [Finset.sum_range_succ, Finset.sum_range_succ, Finset.sum_range_one]
  ring

/-- C1: refuted.  For the polytope `{0 ≤ x ≤ (3,3,3)}` cut by the
equations `-1 - x0 + 2*x1 = 0` and `-x0 + 3*x2 = 0` — a polyhedron in the
nonnegative orthant over `ZZ` with finitely many integral points —
`generate_mods` produces **no** residue configuration, so the computed
result is an empty sum whose power-series coefficient at the integral
point `(3,2,1)` of the polytope is `0`, not `1`, whatever the individual
branches would have computed. -/
theorem C1_coefficient_count_wrong :
    (∀ branch : ModConfig → Series,
      ((generate_mods [[-1,-1,2,0],[0,-1,0,3]]).map
        (fun mod => branch mod (ptOf [3,2,1]))).sum = 0)
    ∧ ((generate_mods [[-1,-1,2,0],[0,-1,0,3]]).map
        (fun mod => gfCoeffMod 3
          [[0,1,0,0],[0,0,1,0],[0,0,0,1],[3,-1,0,0],[3,0,-1,0],[3,0,0,-1]]
          [[-1,-1,2,0],[0,-1,0,3]] mod (ptOf [3,2,1]))).sum = 0
    ∧ gfCoeff 3
        [[0,1,0,0],[0,0,1,0],[0,0,0,1],[3,-1,0,0],[3,0,-1,0],[3,0,0,-1]]
        [[-1,-1,2,0],[0,-1,0,3]] (ptOf [3,2,1]) = 1
    ∧ (∀ v : ℕ → ℤ, okPoint 3 v
        → satIneqs 3
            [[0,1,0,0],[0,0,1,0],[0,0,0,1],[3,-1,0,0],[3,0,-1,0],[3,0,0,-1]] v
        → ∀ i ∈ Finset.range 3, 0 ≤ v i ∧ v i ≤ 3) := by
  have hmods : generate_mods [[-1,-1,2,0],[0,-1,0,3]] = [] := by decide
  refine ⟨?_, ?_, by decide, ?_⟩
  · intro branch
    rw [hmods]
    rfl
  · rw [hmods]
    rfl
  · intro v hok hin i hi
    refine ⟨hok i hi, ?_⟩
    have h0 := hin [3,-1,0,0] (by simp)
    have h1 := hin [3,0,-1,0] (by simp)
    have h2 := hin [3,0,0,-1] (by simp)
    rw [aeval_three] at h0 h1 h2
    simp only [coeff, List.getD_cons_zero, List.getD_cons_succ,
      List.getD_nil] at h0 h1 h2
    have hi3 := Finset.mem_range.mp hi
    interval_cases i <;> omega

end GenFn

namespace GenFn

/-- Modelled from the spec: the polyhedron collaborator, reduced to the
four predicates the orchestrator queries — emptiness, whether the base
ring is `ZZ` or `QQ`, whether intersecting with the nonnegative orthant
leaves the polyhedron unchanged, and whether the H-representation
contains at least one inequality. -/
structure PolyModel where
  isEmpty : Bool
  ringZZorQQ : Bool
  insideOrthant : Bool
  hasIneqs : Bool
deriving DecidableEq

/-- Outcome of a call of the generating-function entry points. -/
inductive GFOutcome where
  | zeroFactorization (asTuple : Bool)
  | typeError
  | notImplementedRegion
  | noInequality
  | computed
deriving DecidableEq

/-- `_generating_function_of_integral_points_`: an empty polyhedron gives
the one-element tuple holding the zero factorization; a polyhedron whose
H-representation has no inequality raises `NotImplementedError`;
otherwise the computation proceeds. -/
def singleShot (P : PolyModel) : GFOutcome :=
  if P.isEmpty then GFOutcome.zeroFactorization true
  else if P.hasIneqs then GFOutcome.computed
  else GFOutcome.noInequality

/-- `generating_function_of_integral_points`: `result_as_tuple` defaults
to `split`; an empty polyhedron returns the zero factorization (wrapped
according to `result_as_tuple`); then a base ring other than `ZZ`/`QQ`
raises `TypeError`; then a polyhedron changed by intersecting with the
nonnegative orthant raises `NotImplementedError`; otherwise the
computation is dispatched (to the single-shot reduction when `split` is
off). -/
def gfip (P : PolyModel) (split : Bool)
    (result_as_tuple : Option Bool) : GFOutcome :=
  let rat := result_as_tuple.getD split
  if P.isEmpty then GFOutcome.zeroFactorization rat
  else if P.ringZZorQQ then
    (if P.insideOrthant then
      (if split then GFOutcome.computed else singleShot P)
    else GFOutcome.notImplementedRegion)
  else GFOutcome.typeError

/-- The split loop at the end of `generating_function_of_integral_points`:
the single-shot reduction runs on each piece of the supplied split in
turn and the results are collected; an error raised for any piece aborts
the whole computation. -/
def splitLoop : List PolyModel → GFOutcome
  | [] => GFOutcome.computed
  | P :: rest =>
      match singleShot P with
      | GFOutcome.noInequality => GFOutcome.noInequality
      | _ => splitLoop rest

/-- C8 (amended): the error checks apply in precedence order.  A
**nonempty** polyhedron over a base ring other than `ZZ`/`QQ` raises the
unsupported-base-ring `TypeError`; a **nonempty** polyhedron over
`ZZ`/`QQ` that is changed by intersecting with the nonnegative orthant
raises the unsupported-region `NotImplementedError`; an empty polyhedron
short-circuits both checks and returns the zero factorization. -/
theorem C8_error_checks (P : PolyModel) (split : Bool)
    (rat : Option Bool) :
    (P.isEmpty = false → P.ringZZorQQ = false →
      gfip P split rat = GFOutcome.typeError)
    ∧ (P.isEmpty = false → P.ringZZorQQ = true → P.insideOrthant = false →
      gfip P split rat = GFOutcome.notImplementedRegion)
    ∧ (P.isEmpty = true →
      gfip P split rat = GFOutcome.zeroFactorization (rat.getD split)) := by
  refine ⟨?_, ?_, ?_⟩
  · intro h1 h2
    unfold gfip
    rw [h1, h2]
    rfl
  · intro h1 h2 h3
    unfold gfip
    rw [h1, h2, h3]
    rfl
  · intro h1
    unfold gfip
    rw [h1]
    rfl

/-- Witness for `C8_error_checks` on three concrete polyhedron models. -/
theorem C8_error_checks_witness :
    gfip ⟨false, false, true, true⟩ false none = GFOutcome.typeError
    ∧ gfip ⟨false, true, false, true⟩ false none
        = GFOutcome.notImplementedRegion
    ∧ gfip ⟨true, true, true, true⟩ false none
        = GFOutcome.zeroFactorization false :=
  ⟨(C8_error_checks ⟨false, false, true, true⟩ false none).1 rfl rfl,
   (C8_error_checks ⟨false, true, false, true⟩ false none).2.1 rfl rfl rfl,
   (C8_error_checks ⟨true, true, true, true⟩ false none).2.2 rfl⟩

/-- C8 counterexample to the claim as stated: an **empty** polyhedron
over an unsupported base ring (e.g. `RDF`) returns the zero
factorization instead of raising `TypeError` (the emptiness check runs
first), and a polyhedron over an unsupported ring reaching outside the
orthant raises `TypeError`, not the unsupported-region error. -/
theorem C8_claim_ordering_fails :
    (gfip ⟨true, false, true, true⟩ false none
        = GFOutcome.zeroFactorization false
      ∧ GFOutcome.zeroFactorization false ≠ GFOutcome.typeError)
    ∧ (gfip ⟨false, false, false, true⟩ false none = GFOutcome.typeError
      ∧ GFOutcome.typeError ≠ GFOutcome.notImplementedRegion) :=
  ⟨⟨by decide, by decide⟩, ⟨by decide, by decide⟩⟩

/-- C9: an empty polyhedron yields the zero factorization for every
combination of the `split` and `result_as_tuple` options (wrapped into a
tuple according to the effective `result_as_tuple`). -/
theorem C9_empty_polyhedron (P : PolyModel) (split : Bool)
    (rat : Option Bool) (h : P.isEmpty = true) :
    gfip P split rat = GFOutcome.zeroFactorization (rat.getD split) := by
  unfold gfip
  rw [h]
  rfl

/-- Witness for `C9_empty_polyhedron`. -/
theorem C9_empty_polyhedron_witness :
    gfip ⟨true, true, true, false⟩ true (some false)
      = GFOutcome.zeroFactorization false :=
  C9_empty_polyhedron ⟨true, true, true, false⟩ true (some false) rfl

/-- C10: the single-shot reduction raises
`NotImplementedError('no inequality given')` on every nonempty
polyhedron whose H-representation contains no inequality. -/
theorem C10_no_inequality (P : PolyModel) (h1 : P.isEmpty = false)
    (h2 : P.hasIneqs = false) :
    singleShot P = GFOutcome.noInequality := by
  unfold singleShot
  rw [h1, h2]
  rfl

/-- Witness for `C10_no_inequality`. -/
theorem C10_no_inequality_witness :
    singleShot ⟨false, true, true, false⟩ = GFOutcome.noInequality :=
  C10_no_inequality ⟨false, true, true, false⟩ rfl rfl

end GenFn

namespace GenFn

/-- C3: refuted.  Partition the polytope `P` of
`C1_coefficient_count_wrong` into `P1 = P ∩ {x0 = 3}` and
`P2 = P ∩ {x0 ≤ 2}`: the pieces are disjoint sub-polyhedra covering all
points of `P` (first conjunct), and `P1` is the single point `(3,2,1)`
(second conjunct), so its H-representation consists of equations only.
Computing `P` directly completes — one single-shot run on a nonempty
polyhedron with inequalities — but whatever the individual branch
evaluations would return, the result is a sum over the residue
configurations of `generate_mods`, which is empty here, so the computed
coefficient at every exponent vector is `0`, although the generating
function of `P` has coefficient `1` at its unique integral point
`(3,2,1)` (third conjunct).  Computing the caller-supplied split instead
never produces a sum of piece values at all: the single-shot reduction
on the inequality-free point piece raises
`NotImplementedError('no inequality given')`, in either traversal order
(fourth conjunct).  So the `split` option changes the result, and
neither computation attains the claimed value. -/
theorem C3_partition_sum_unattained :
    (∀ v : ℕ → ℤ,
      ((okPoint 3 v
          ∧ satIneqs 3
              [[0,1,0,0],[0,0,1,0],[0,0,0,1],[3,-1,0,0],[3,0,-1,0],[3,0,0,-1]] v
          ∧ satEqs 3 [[-1,-1,2,0],[0,-1,0,3]] v)
        ↔ ((okPoint 3 v
            ∧ satIneqs 3
                [[0,1,0,0],[0,0,1,0],[0,0,0,1],[3,-1,0,0],[3,0,-1,0],[3,0,0,-1]] v
            ∧ satEqs 3 [[-1,-1,2,0],[0,-1,0,3],[-3,1,0,0]] v)
          ∨ (okPoint 3 v
            ∧ satIneqs 3
                [[0,1,0,0],[0,0,1,0],[0,0,0,1],[3,-1,0,0],[3,0,-1,0],[3,0,0,-1],[2,-1,0,0]] v
            ∧ satEqs 3 [[-1,-1,2,0],[0,-1,0,3]] v)))
      ∧ ¬ ((okPoint 3 v
            ∧ satIneqs 3
                [[0,1,0,0],[0,0,1,0],[0,0,0,1],[3,-1,0,0],[3,0,-1,0],[3,0,0,-1]] v
            ∧ satEqs 3 [[-1,-1,2,0],[0,-1,0,3],[-3,1,0,0]] v)
          ∧ (okPoint 3 v
            ∧ satIneqs 3
                [[0,1,0,0],[0,0,1,0],[0,0,0,1],[3,-1,0,0],[3,0,-1,0],[3,0,0,-1],[2,-1,0,0]] v
            ∧ satEqs 3 [[-1,-1,2,0],[0,-1,0,3]] v)))
    ∧ (∀ v : ℕ → ℤ,
        (okPoint 3 v
          ∧ satIneqs 3
              [[0,1,0,0],[0,0,1,0],[0,0,0,1],[3,-1,0,0],[3,0,-1,0],[3,0,0,-1]] v
          ∧ satEqs 3 [[-1,-1,2,0],[0,-1,0,3],[-3,1,0,0]] v)
        ↔ (v 0 = 3 ∧ v 1 = 2 ∧ v 2 = 1))
    ∧ ((∀ branch : ModConfig → Series, ∀ v : ℕ → ℤ,
        ((generate_mods [[-1,-1,2,0],[0,-1,0,3]]).map
          (fun mod => branch mod v)).sum = 0)
      ∧ gfCoeff 3
          [[0,1,0,0],[0,0,1,0],[0,0,0,1],[3,-1,0,0],[3,0,-1,0],[3,0,0,-1]]
          [[-1,-1,2,0],[0,-1,0,3]] (ptOf [3,2,1]) = 1)
    ∧ (singleShot ⟨false, true, true, true⟩ = GFOutcome.computed
      ∧ singleShot ⟨false, true, true, false⟩ = GFOutcome.noInequality
      ∧ splitLoop [⟨false, true, true, false⟩, ⟨false, true, true, true⟩]
          = GFOutcome.noInequality
      ∧ splitLoop [⟨false, true, true, true⟩, ⟨false, true, true, false⟩]
          = GFOutcome.noInequality
      ∧ GFOutcome.noInequality ≠ GFOutcome.computed) := by
  have hmods : generate_mods [[-1,-1,2,0],[0,-1,0,3]] = [] := by decide
  refine ⟨?_, ?_, ⟨?_, by decide⟩, by decide, by decide, by decide,
    by decide, by decide⟩
  · intro v
    simp only [satIneqs, satEqs, List.forall_mem_cons,
      okPoint_three, aeval_three, coeff, List.getD_cons_zero,
      List.getD_cons_succ, List.getD_nil]
    simp only [List.not_mem_nil, false_implies, implies_true, and_true]
    omega
  · intro v
    simp only [satIneqs, satEqs, List.forall_mem_cons,
      okPoint_three, aeval_three, coeff, List.getD_cons_zero,
      List.getD_cons_succ, List.getD_nil]
    simp only [List.not_mem_nil, false_implies, implies_true, and_true]
    omega
  · intro branch v
    rw [hmods]
    rfl

end GenFn
